import Mathlib

/-!
Shallow embedding of `followthemoney/schema.py` (the schema hierarchy
resolution and validation engine).

Conventions of the embedding:

* Python `Schema` objects are identified by their `name` (the source defines
  `__eq__`/`__hash__` purely via the name, see `schema.py` lines 386-394), so
  Python sets of `Schema` references are modelled as `Finset String` of names
  and the heap of live schema objects is a `Model := List (String × Schema)`
  association list mapping each name to the current state of its object.
* Mutating methods are modelled by state passing: they take a `Model` and
  return the updated `Model` (in `Except Err` when the Python code can raise).
* Unbounded recursion (`Schema.generate` recurses into parents with no guard)
  is modelled with explicit fuel; a Python run that terminates corresponds to
  any sufficiently large fuel, and an infinite recursion (cyclic `extends`)
  hits `Err.fuel` at every fuel.
* Localisation (`gettext`) and the per-property validator
  (`Property.validate`) are external collaborators and are passed in as
  function parameters.
-/

namespace FTM

/-- Modelled from the spec: the property specification dictionary
(`PropertySpec` of `followthemoney/property.py`, which is not among the
sources); only the keys that `schema.py` itself writes in `_add_reverse`
are represented. -/
structure PropertySpec where
  label : Option String
  hidden : Option Bool
  ptype : Option String
  range : Option String
  reverseName : Option String
deriving DecidableEq, Repr

/-- Modelled from the spec: `PropertyView` (`followthemoney/property.py` is
not among the sources).  Per §6 of the spec it is "constructible from
`(owning_schema, name, spec)`; exposes `generate()`, `validate(values)`,
`name`, `hidden`, `label` ... supports being marked as a stub".  Python
reference identity of a property is modelled by structural equality of this
record; properties declared by distinct schemas differ in `schema`. -/
structure Property where
  schema : String
  name : String
  stub : Bool
  hidden : Bool
  label : Option String
  ptype : Option String
  range : Option String
  reverseName : Option String
deriving DecidableEq, Repr

/-- Modelled from the spec: the `Property` constructor
(`Property(schema, name, spec)`); it records the owning schema, the name and
the spec fields.  `stub` starts out false (`_add_reverse` sets it). -/
def propertyInit (owner name : String) (ps : PropertySpec) : Property :=
  { schema := owner
    name := name
    stub := false
    hidden := ps.hidden.getD false
    label := ps.label
    ptype := ps.ptype
    range := ps.range
    reverseName := ps.reverseName }

/-- `EdgeSpec` (schema.py lines 24-29). -/
structure EdgeSpec where
  source : Option String
  target : Option String
  caption : List String
  label : Option String
  directed : Option Bool
deriving DecidableEq, Repr

/-- `SchemaSpec` (schema.py lines 32-47).  `Optional` values model keys that
may be absent from the dictionary; `properties` is the insertion-ordered
mapping of locally declared property specs. -/
structure SchemaSpec where
  label : Option String
  plural : Option String
  extendsNames : List String
  properties : List (String × PropertySpec)
  featured : List String
  required : List String
  caption : List String
  edge : Option EdgeSpec
  description : Option String
  abstract : Option Bool
  hidden : Option Bool
  generated : Option Bool
  matchable : Option Bool
deriving DecidableEq, Repr

/-- One `Schema` object (schema.py lines 67-186).  The mutable set-valued
slots (`extends`, `schemata`, `names`, `descendants`) hold schema names, per
the name-identity convention above.  `properties` is the insertion-ordered
dict `name -> Property`. -/
structure Schema where
  name : String
  labelKey : String
  pluralKey : String
  descriptionKey : Option String
  abstract : Bool
  hidden : Bool
  generated : Bool
  matchable : Bool
  featured : List String
  required : List String
  caption : List String
  edge_source : Option String
  edge_target : Option String
  edge : Bool
  edge_caption : List String
  edgeLabelKey : String
  edge_directed : Bool
  extNames : List String
  extendsSet : Finset String
  schemata : Finset String
  names : Finset String
  descendants : Finset String
  matchableCache : Option (Finset String)
  properties : List (String × Property)
deriving DecidableEq

/-- `Schema.__init__` (schema.py lines 106-186).  `as_bool(x, d)` on an
absent key is `Option.getD d`; `ensure_list` on list-valued keys is the
identity.  Line 124: `self.hidden = self.hidden and not self.abstract`. -/
def schemaInit (name : String) (d : SchemaSpec) : Schema :=
  let label := d.label.getD name
  let abstract := d.abstract.getD false
  let edge := d.edge.getD { source := none, target := none, caption := [],
                            label := none, directed := none }
  { name := name
    labelKey := label
    pluralKey := d.plural.getD label
    descriptionKey := d.description
    abstract := abstract
    hidden := (d.hidden.getD false) && !abstract
    generated := d.generated.getD false
    matchable := d.matchable.getD true
    featured := d.featured
    required := d.required
    caption := d.caption
    edge_source := edge.source
    edge_target := edge.target
    edge := edge.source.isSome && edge.target.isSome
    edge_caption := edge.caption
    edgeLabelKey := edge.label.getD label
    edge_directed := edge.directed.getD true
    extNames := d.extendsNames
    extendsSet := ∅
    schemata := {name}
    names := {name}
    descendants := ∅
    matchableCache := none
    properties := d.properties.map (fun e => (e.1, propertyInit name e.1 e.2)) }

/-- First-match association-list lookup: Python `dict.get`. -/
def alookup {β : Type} : List (String × β) → String → Option β
  | [], _ => none
  | e :: rest, k => if e.1 = k then some e.2 else alookup rest k

/-- The heap of schema objects, keyed by schema name (the registry's view). -/
abbrev Model := List (String × Schema)

/-- `model.get(name)` / attribute access on a schema reference. -/
def mget (m : Model) (k : String) : Option Schema := alookup m k

/-- Replace the state of the object named `k` (Python in-place mutation). -/
def mupdate (m : Model) (k : String) (f : Schema → Schema) : Model :=
  m.map (fun e => if e.1 = k then (e.1, f e.2) else e)

/-- `ancestor.descendants.add(self)` for one ancestor. -/
def addDescS (s : Schema) (c : String) : Schema :=
  { s with descendants := insert c s.descendants }

/-- `for ancestor in parent.schemata: ancestor.descendants.add(self)`
(schema.py line 205), applied to every live object whose name is in
`ancs`. -/
def addDesc (m : Model) (ancs : Finset String) (c : String) : Model :=
  m.map (fun e => if e.1 ∈ ancs then (e.1, addDescS e.2 c) else e)

/-- Property-merge loop (schema.py lines 197-199):
`for name, prop in parent.properties.items(): if name not in self.properties:
self.properties[name] = prop`.  Appending preserves dict insertion order;
present names are never overwritten. -/
def mergeProps (own inherited : List (String × Property)) :
    List (String × Property) :=
  inherited.foldl
    (fun acc np => if (alookup acc np.1).isSome then acc else acc ++ [np]) own

/-- The two exception kinds of `followthemoney.exc` used by `schema.py`,
plus the two artefacts of the embedding: `fuel` (the run did not terminate
within the given fuel — a Python run that terminates corresponds to a large
enough fuel) and `absent` (attribute access on a schema object that is not in
the model; unreachable when the method is invoked on a live object). -/
inductive Err where
  | invalidData (msg : String)
  | invalidModel (msg : String)
  | fuel
  | absent
deriving DecidableEq, Repr

/-- `Schema.get` (schema.py lines 322-326). -/
def Schema.get (s : Schema) (name : Option String) : Option Property :=
  match name with
  | none => none
  | some n => alookup s.properties n

/-- `Schema.source_prop` (schema.py lines 271-274). -/
def Schema.sourceProp (s : Schema) : Option Property := s.get s.edge_source

/-- `Schema.target_prop` (schema.py lines 276-279). -/
def Schema.targetProp (s : Schema) : Option Property := s.get s.edge_target

/-- One of the three name-resolution check loops of `Schema.generate`
(schema.py lines 210-220): raise `InvalidModel` at the first name that does
not resolve to a property. -/
def checkList (s : Schema) (msg : String) : List String → Except Err Unit
  | [] => .ok ()
  | n :: rest =>
    match s.get (some n) with
    | some _ => checkList s msg rest
    | none => .error (.invalidModel (msg ++ n))

/-- The validation tail of `Schema.generate` (schema.py lines 210-229):
featured / caption / required name checks, then the edge endpoint checks.
The preceding per-property `prop.generate()` loop (line 207-208) finalises
property-internal cross-references and does not alter the schema-level state
this embedding tracks. -/
def postChecks (s : Schema) : Except Err Unit :=
  match checkList s "Missing featured property: " s.featured with
  | .error e => .error e
  | .ok _ =>
    match checkList s "Missing caption property: " s.caption with
    | .error e => .error e
    | .ok _ =>
      match checkList s "Missing required property: " s.required with
      | .error e => .error e
      | .ok _ =>
        if s.edge then
          match s.sourceProp with
          | none =>
            .error (.invalidModel
              ("Missing edge source: " ++ s.edge_source.getD ""))
          | some _ =>
            match s.targetProp with
            | none =>
              .error (.invalidModel
                ("Missing edge target: " ++ s.edge_target.getD ""))
            | some _ => .ok ()
        else
          .ok ()

/-- The per-parent merge step of `Schema.generate` (schema.py lines 197-205),
run after `parent.generate()` returned: copy absent properties, add the
parent to `extends`, fold the parent's `schemata` into `schemata`/`names`
and register `self` in every ancestor's `descendants` (via `addDesc`, which
also covers `self` if it happened to be its own ancestor, matching the
aliasing of the Python loop). -/
def mergeParent (m : Model) (selfN : String) (par : Schema) : Model :=
  addDesc
    (mupdate m selfN (fun s =>
      { s with
        properties := mergeProps s.properties par.properties
        extendsSet := insert par.name s.extendsSet
        schemata := s.schemata ∪ par.schemata
        names := s.names ∪ par.schemata }))
    par.schemata selfN

/-- The `for extends in self._extends` loop of `Schema.generate`
(schema.py lines 191-205), parameterized by the recursive generator `gen`
(which `generate` instantiates with itself at one fuel less): look the
parent up (`InvalidData` when absent), recursively generate it, then merge
it into `self`. -/
def genParentsF (gen : Model → String → Except Err Model) :
    Model → String → List String → Except Err Model
  | m, _, [] => .ok m
  | m, selfN, p :: rest =>
    match mget m p with
    | none => .error (.invalidData ("Invalid extends: " ++ p))
    | some _ =>
      match gen m p with
      | .error e => .error e
      | .ok m1 =>
        match mget m1 p with
        | none => .error .absent
        | some par => genParentsF gen (mergeParent m1 selfN par) selfN rest

/-- `Schema.generate` (schema.py lines 188-229), with explicit fuel for the
unguarded recursion into parents. -/
def generate : Nat → Model → String → Except Err Model
  | 0, _, _ => .error .fuel
  | fuel + 1, m, selfN =>
    match mget m selfN with
    | none => .error .absent
    | some s0 =>
      match genParentsF (fun m2 p => generate fuel m2 p) m selfN
          s0.extNames with
      | .error e => .error e
      | .ok m1 =>
        match mget m1 selfN with
        | none => .error .absent
        | some s1 =>
          match postChecks s1 with
          | .error e => .error e
          | .ok _ => .ok m1

/-- The parent loop at a given fuel (the form in which `generate` invokes
it). -/
def genParents (fuel : Nat) : Model → String → List String →
    Except Err Model :=
  genParentsF (fun m2 p => generate fuel m2 p)

/-- Modelled from the spec (§2 control flow): phase 2 of the load — "the
registry ... then invokes `generate()` on each" schema (the registry lives in
`model.py`, which is not among the sources).  An error aborts the whole
load. -/
def generateAll (fuel : Nat) : Model → List String → Except Err Model
  | m, [] => .ok m
  | m, n :: rest =>
    match generate fuel m n with
    | .error e => .error e
    | .ok m1 => generateAll fuel m1 rest

/-- `ReverseSpec` of `followthemoney/property.py` as read by
`Schema._add_reverse`. -/
structure ReverseSpec where
  name : Option String
  label : Option String
  hidden : Option Bool
deriving DecidableEq, Repr

/-- `Schema._add_reverse` (schema.py lines 231-249).  The synthesized stub's
`prop.generate()` call is property-internal and does not alter schema-level
state. -/
def addReverse (m : Model) (selfN : String) (data : ReverseSpec)
    (other : Property) : Except Err (Model × Property) :=
  match data.name with
  | none => .error (.invalidModel ("Unnamed reverse: " ++ other.name))
  | some name =>
    match mget m selfN with
    | none => .error .absent
    | some s =>
      match s.get (some name) with
      | some prop => .ok (m, prop)
      | none =>
        let spec : PropertySpec :=
          { label := data.label
            hidden := some (data.hidden.getD other.hidden)
            ptype := some "entity"
            range := some other.schema
            reverseName := some other.name }
        let prop := { propertyInit selfN name spec with stub := true }
        .ok (mupdate m selfN
              (fun t => { t with properties := t.properties ++ [(name, prop)] }),
             prop)

/-- `Schema.matchable_schemata` (schema.py lines 294-311): lazily computed
and memoized in `_matchable_schemata`.  Returns the (possibly updated)
schema object together with the set. -/
def matchableSchemata (m : Model) (s : Schema) : Schema × Finset String :=
  match s.matchableCache with
  | some c => (s, c)
  | none =>
    let c :=
      if s.matchable then
        (s.schemata ∪ s.descendants).filter
          (fun n => ((mget m n).map Schema.matchable).getD false = true)
      else ∅
    ({ s with matchableCache := some c }, c)

/-- `Schema.can_match` (schema.py lines 313-315): membership of `other` in
`matchable_schemata` (schema sets compare by name). -/
def canMatch (m : Model) (s : Schema) (other : Schema) : Schema × Bool :=
  let r := matchableSchemata m s
  (r.1, decide (other.name ∈ r.2))

/-- The error raised by `Schema.validate`:
`InvalidData(gettext("Entity validation failed"), errors={"properties": errors})`. -/
structure VErr where
  msg : String
  errors : List (String × String)
deriving DecidableEq, Repr

/-- The loop body of `Schema.validate` (schema.py lines 335-339) for one
entry of `self.properties`: the input values (empty when absent), the
property's own validator `pv`, then the `Required` check. -/
def errFor {α : Type} (gt : String → String)
    (pv : Property → List α → Option String) (s : Schema)
    (props : List (String × List α)) (np : String × Property) : Option String :=
  let values := (alookup props np.1).getD []
  match pv np.2 values with
  | some e => some e
  | none =>
    if values.isEmpty ∧ np.2.name ∈ s.required then some (gt "Required")
    else none

/-- The `errors` mapping accumulated by `Schema.validate`
(schema.py lines 332-341), keyed in `self.properties` iteration order. -/
def validateErrors {α : Type} (gt : String → String)
    (pv : Property → List α → Option String) (s : Schema)
    (props : List (String × List α)) : List (String × String) :=
  s.properties.foldl
    (fun errors np =>
      match errFor gt pv s props np with
      | some e => errors ++ [(np.1, e)]
      | none => errors) []

/-- `Schema.validate` (schema.py lines 328-345).  `data.get("properties")`
is the `Option` input (absent ↦ `{}` via `ensure_dict`); the per-property
validator `prop.validate` is the external collaborator `pv`; a Python
`None` return is `.ok ()`. -/
def validate {α : Type} (gt : String → String)
    (pv : Property → List α → Option String) (s : Schema)
    (data : Option (List (String × List α))) : Except VErr Unit :=
  let properties := data.getD []
  let errors := validateErrors gt pv s properties
  if errors.isEmpty then .ok ()
  else .error { msg := gt "Entity validation failed", errors := errors }

/-- State-passing view of `Schema.validate`: the method body contains no
assignment to `self` or to the caller's `data` (every statement only reads
them), so the post-state of both equals the pre-state. -/
def validateS {α : Type} (gt : String → String)
    (pv : Property → List α → Option String) (s : Schema)
    (data : Option (List (String × List α))) :
    Schema × Option (List (String × List α)) × Except VErr Unit :=
  (s, data, validate gt pv s data)

/-- The `edge` block written by `Schema.to_dict` (schema.py lines 355-362). -/
structure EdgeDict where
  source : String
  target : String
  caption : List String
  label : String
  directed : Bool
deriving DecidableEq, Repr

/-- The sparse dictionary produced by `Schema.to_dict`
(schema.py lines 50-64): `Option`-valued fields model keys that may be
absent.  `prop.to_dict()` is external, so the property record itself stands
for its serialised form. -/
structure SchemaToDict where
  label : String
  plural : String
  schemataNames : List String
  extendsNames : List String
  edge : Option EdgeDict
  featured : Option (List String)
  required : Option (List String)
  caption : Option (List String)
  description : Option String
  abstract : Option Bool
  hidden : Option Bool
  generated : Option Bool
  matchable : Option Bool
  properties : List (String × Property)
deriving DecidableEq, Repr

/-- `Schema.to_dict` (schema.py lines 347-384).  Python truthiness of the
strings on line 355 (`if self.edge_source and self.edge_target and
self.edge_label`) is: not `None` and not the empty string.  `gettext` is the
external localisation collaborator `gt` (applied to `None` it yields
`None`). -/
def toDict (gt : String → String) (s : Schema) : SchemaToDict :=
  { label := gt s.labelKey
    plural := gt s.pluralKey
    schemataNames := s.names.sort (· ≤ ·)
    extendsNames := s.extendsSet.sort (· ≤ ·)
    edge :=
      match s.edge_source, s.edge_target with
      | some src, some tgt =>
        if src ≠ "" ∧ tgt ≠ "" ∧ gt s.edgeLabelKey ≠ "" then
          some { source := src, target := tgt, caption := s.edge_caption,
                 label := gt s.edgeLabelKey, directed := s.edge_directed }
        else none
      | _, _ => none
    featured := if s.featured.isEmpty then none else some s.featured
    required := if s.required.isEmpty then none else some s.required
    caption := if s.caption.isEmpty then none else some s.caption
    description :=
      match s.descriptionKey with
      | none => none
      | some d => if gt d = "" then none else some (gt d)
    abstract := if s.abstract then some true else none
    hidden := if s.hidden then some true else none
    generated := if s.generated then some true else none
    matchable := if s.matchable then some true else none
    properties := s.properties.filter (fun e => decide (e.2.schema = s.name)) }

/-- Phase 1 of the load: construct one `Schema` object per raw spec
(`SchemaRegistry` collaborator, §2 of the spec). -/
def initModel (specs : List (String × SchemaSpec)) : Model :=
  specs.map (fun e => (e.1, schemaInit e.1 e.2))

/-- The (immutable) `extends`-graph declared by a spec list: direct parent
names of each schema. -/
def extG (specs : List (String × SchemaSpec)) : String → List String :=
  fun k => ((mget (initModel specs) k).map Schema.extNames).getD []

/-- The locally declared properties of each schema, as constructed. -/
def propPhi (specs : List (String × SchemaSpec)) :
    String → List (String × Property) :=
  fun k => ((mget (initModel specs) k).map Schema.properties).getD []

/-- `rank` witnesses acyclicity of the extends-graph `g`: every direct
parent has strictly smaller rank.  A finite graph is acyclic iff such a
rank exists. -/
def RkG (g : String → List String) (rank : String → Nat) : Prop :=
  ∀ k p, p ∈ g k → rank p < rank k

/-- Union of a `Finset`-valued function over a list of names. -/
def unionF (F : String → Finset String) (ps : List String) : Finset String :=
  ps.foldr (fun p acc => F p ∪ acc) ∅

/-- Fuel-indexed ancestor closure of the extends-graph `g`. -/
def clF (g : String → List String) : Nat → String → Finset String
  | 0, n => {n}
  | f + 1, n => insert n (unionF (clF g f) (g n))

/-- The ancestor closure of `k`: `{k}` together with all schemas reachable
through `extends`.  At fuel `rank k` the fuel-indexed closure has converged
(see `clF_stab`). -/
def CLr (g : String → List String) (rank : String → Nat) (k : String) :
    Finset String :=
  clF g (rank k) k

/-- Union of the closures of a list of names. -/
def unionCLr (g : String → List String) (rank : String → Nat)
    (ps : List String) : Finset String :=
  unionF (CLr g rank) ps

/-- The state invariant maintained by generation, relative to the static
extends-graph `g`, an acyclicity rank and the map `Phi` of initially
declared properties: keys are unique and name their schema, `extNames` is
static, `schemata` always contains `self` and is sound for the closure,
`names` mirrors `schemata`, property keys stay unique, initially declared
properties stay bound to their initial value, and every binding originates
from the initial declaration of some schema in the closure. -/
def Inv (g : String → List String) (rank : String → Nat)
    (Phi : String → List (String × Property)) (m : Model) : Prop :=
  (m.map Prod.fst).Nodup ∧
  ∀ k s, mget m k = some s →
    s.name = k ∧
    s.extNames = g k ∧
    k ∈ s.schemata ∧
    s.schemata ⊆ CLr g rank k ∧
    s.names = s.schemata ∧
    (s.properties.map Prod.fst).Nodup ∧
    (∀ nm v, alookup (Phi k) nm = some v → alookup s.properties nm = some v) ∧
    (∀ np ∈ s.properties, ∃ a, a ∈ CLr g rank k ∧ alookup (Phi a) np.1 = some np.2)

/-- `k`'s `generate()` has completed in state `m`: its `schemata` is the
full closure, every property declared by any schema of the closure resolves
in its merged map, it is registered in the `descendants` of every proper
ancestor, its declared parents are in `extends`, and its post-merge checks
pass. -/
def GenDone (g : String → List String) (rank : String → Nat)
    (Phi : String → List (String × Property)) (m : Model) (k : String) :
    Prop :=
  ∃ s, mget m k = some s ∧
    s.schemata = CLr g rank k ∧
    (∀ a, a ∈ CLr g rank k → ∀ nm v, alookup (Phi a) nm = some v →
      (alookup s.properties nm).isSome) ∧
    (∀ a, a ∈ CLr g rank k → a ≠ k →
      ∃ sa, mget m a = some sa ∧ k ∈ sa.descendants) ∧
    (∀ p ∈ g k, p ∈ s.extendsSet) ∧
    postChecks s = Except.ok ()

/-- `GenDone` for every schema in `k`'s closure (its whole ancestor cone). -/
def GenDoneCone (g : String → List String) (rank : String → Nat)
    (Phi : String → List (String × Property)) (m : Model) (k : String) :
    Prop :=
  ∀ a ∈ CLr g rank k, GenDone g rank Phi m a

/-- All fields of a schema that `generate` never mutates. -/
def sameCore (s t : Schema) : Prop :=
  t.name = s.name ∧ t.labelKey = s.labelKey ∧ t.pluralKey = s.pluralKey ∧
  t.descriptionKey = s.descriptionKey ∧ t.abstract = s.abstract ∧
  t.hidden = s.hidden ∧ t.generated = s.generated ∧
  t.matchable = s.matchable ∧ t.featured = s.featured ∧
  t.required = s.required ∧ t.caption = s.caption ∧
  t.edge_source = s.edge_source ∧ t.edge_target = s.edge_target ∧
  t.edge = s.edge ∧ t.edge_caption = s.edge_caption ∧
  t.edgeLabelKey = s.edgeLabelKey ∧ t.edge_directed = s.edge_directed ∧
  t.extNames = s.extNames ∧ t.matchableCache = s.matchableCache

/-- Evolution frame of `generate`: no schema appears or disappears, the
immutable fields are preserved, and the mutable sets / the property map only
grow (existing property bindings are never overwritten). -/
def Frame (m m' : Model) : Prop :=
  (∀ k, mget m k = none → mget m' k = none) ∧
  (∀ k s, mget m k = some s → ∃ t, mget m' k = some t ∧ sameCore s t ∧
    s.schemata ⊆ t.schemata ∧ s.names ⊆ t.names ∧
    s.descendants ⊆ t.descendants ∧ s.extendsSet ⊆ t.extendsSet ∧
    (∀ nm v, alookup s.properties nm = some v →
      alookup t.properties nm = some v))

/-- The self-mutated fields of a schema are untouched. -/
def SelfKeep (s t : Schema) : Prop :=
  t.schemata = s.schemata ∧ t.names = s.names ∧
  t.properties = s.properties ∧ t.extendsSet = s.extendsSet

/-- Locality of `generate q`: schemas of rank above `rank q` keep their
self-mutated fields (only their `descendants` may grow). -/
def Loc (rank : String → Nat) (q : String) (m m' : Model) : Prop :=
  ∀ k s t, mget m k = some s → mget m' k = some t → rank q < rank k →
    SelfKeep s t

/-- Locality of the parent loop of `generate n` over the parent list `ps`. -/
def LocList (rank : String → Nat) (n : String) (ps : List String)
    (m m' : Model) : Prop :=
  ∀ k s t, mget m k = some s → mget m' k = some t → k ≠ n →
    (∀ p ∈ ps, rank p < rank k) → SelfKeep s t

/-- Some schema in `k`'s ancestor closure initially declares a property
named `nm` (so `nm` resolves in the merged map after generation). -/
def mergedHas (g : String → List String) (rank : String → Nat)
    (Phi : String → List (String × Property)) (k nm : String) : Prop :=
  ∃ a ∈ CLr g rank k, (alookup (Phi a) nm).isSome

/-- The load-time configuration conditions of one schema: all declared
parents resolve, and every `featured`/`caption`/`required` name and (for an
edge schema) both endpoint names resolve in the merged property map. -/
def condOK (g : String → List String) (rank : String → Nat)
    (Phi : String → List (String × Property)) (m : Model) (k : String) :
    Prop :=
  ∃ s, mget m k = some s ∧
    (∀ p ∈ g k, (mget m p).isSome) ∧
    (∀ nm ∈ s.featured, mergedHas g rank Phi k nm) ∧
    (∀ nm ∈ s.caption, mergedHas g rank Phi k nm) ∧
    (∀ nm ∈ s.required, mergedHas g rank Phi k nm) ∧
    (s.edge = true →
      (∃ src, s.edge_source = some src ∧ mergedHas g rank Phi k src) ∧
      (∃ tgt, s.edge_target = some tgt ∧ mergedHas g rank Phi k tgt))

/-- `{S} ∪ ⋃ parent.schemata` over the direct parents of `s`, read off the
final model: the function whose fixed point claim C1 asserts. -/
def parentsUnionF (m : Model) (s : Schema) : Finset String :=
  unionF (fun p => ((mget m p).map Schema.schemata).getD ∅) s.extNames

/-- Conclusions of a successful `generate fuel m n = ok m'` run: the frame
evolves monotonically, the invariant is preserved, everything in `n`'s
ancestor cone is generated, and schemas above `n`'s rank keep their
self-mutated fields. -/
def GenOut (g : String → List String) (rank : String → Nat)
    (Phi : String → List (String × Property)) (n : String)
    (m m' : Model) : Prop :=
  Frame m m' ∧ Inv g rank Phi m' ∧ GenDoneCone g rank Phi m' n ∧
  Loc rank n m m'

/-- Conclusions of a successful run of the parent loop of `generate n` over
the parent list `ps`: frame, invariant, generated cones of all processed
parents, locality, and the accumulation of `n`'s own fields. -/
def GPOut (g : String → List String) (rank : String → Nat)
    (Phi : String → List (String × Property)) (n : String)
    (ps : List String) (m m' : Model) : Prop :=
  Frame m m' ∧ Inv g rank Phi m' ∧
  (∀ p ∈ ps, GenDoneCone g rank Phi m' p) ∧
  LocList rank n ps m m' ∧
  (∀ s0, mget m n = some s0 → ∃ s1, mget m' n = some s1 ∧
    s1.schemata = s0.schemata ∪ unionCLr g rank ps ∧
    s1.names = s0.names ∪ unionCLr g rank ps ∧
    (∀ p ∈ ps, p ∈ s1.extendsSet) ∧
    (∀ p ∈ ps, ∀ a ∈ CLr g rank p, ∀ nm v,
      alookup (Phi a) nm = some v →
      (alookup s1.properties nm).isSome = true) ∧
    (∀ p ∈ ps, ∀ a ∈ CLr g rank p,
      ∃ sa, mget m' a = some sa ∧ n ∈ sa.descendants))

/-- An empty raw schema specification (all keys absent). -/
def wEmptySpec : SchemaSpec :=
  { label := none, plural := none, extendsNames := [], properties := [],
    featured := [], required := [], caption := [], edge := none,
    description := none, abstract := none, hidden := none, generated := none,
    matchable := none }

/-- A minimal raw property specification. -/
def wPSpec : PropertySpec :=
  { label := none, hidden := none, ptype := none, range := none,
    reverseName := none }

/-- Spec §8 scenario, `Thing`: abstract, declares `name`. -/
def wThingSpec : SchemaSpec :=
  { wEmptySpec with abstract := some true, properties := [("name", wPSpec)] }

/-- Spec §8 scenario, `LegalEntity extends Thing`: declares `country`. -/
def wLESpec : SchemaSpec :=
  { wEmptySpec with
    extendsNames := ["Thing"]
    properties := [("country", wPSpec)] }

/-- Spec §8 scenario, `Company extends LegalEntity`: matchable, requires
`name`. -/
def wCompanySpec : SchemaSpec :=
  { wEmptySpec with
    extendsNames := ["LegalEntity"]
    matchable := some true
    required := ["name"] }

/-- The concrete scenario of spec §8. -/
def wSpecs : List (String × SchemaSpec) :=
  [("Thing", wThingSpec), ("LegalEntity", wLESpec), ("Company", wCompanySpec)]

/-- Rank for `wSpecs`. -/
def wRank : String → Nat :=
  fun k => if k = "Company" then 2 else if k = "LegalEntity" then 1 else 0

/-- The schema names of `wSpecs`, in generation order. -/
def wNames : List String := ["Thing", "LegalEntity", "Company"]

/-- Conflict scenario, root `R1`: declares `x`. -/
def wR1Spec : SchemaSpec := { wEmptySpec with properties := [("x", wPSpec)] }

/-- Conflict scenario, root `R2`: also declares `x`. -/
def wR2Spec : SchemaSpec := { wEmptySpec with properties := [("x", wPSpec)] }

/-- Conflict scenario, `C extends [R1, R2]`. -/
def wCSpec : SchemaSpec := { wEmptySpec with extendsNames := ["R1", "R2"] }

/-- A diamond-conflict scenario: roots `R1` and `R2` both declare a
property named `x`; `C` extends both. -/
def wSpecsC : List (String × SchemaSpec) :=
  [("R1", wR1Spec), ("R2", wR2Spec), ("C", wCSpec)]

/-- Rank for `wSpecsC`. -/
def wRankC : String → Nat := fun k => if k = "C" then 1 else 0

/-- A raw spec carrying featured/required/caption names and a description
(serialisation witnesses). -/
def wSpec7 : SchemaSpec :=
  { wEmptySpec with
    featured := ["a"]
    required := ["b"]
    caption := ["c"]
    description := some "D" }

/-- A raw spec declaring an edge between two locally declared properties. -/
def wEdgeSpecS : SchemaSpec :=
  { wEmptySpec with
    edge := some { source := some "src", target := some "tgt", caption := [],
                   label := some "L", directed := none }
    properties := [("src", wPSpec), ("tgt", wPSpec)] }

/-- A property owned by a schema named `Other`. -/
def wForeignProp : Property := propertyInit "Other" "x" wPSpec

/-- A schema named `S` holding one own property and one property owned by
`Other` (as after inheriting it). -/
def wMixedSchema : Schema :=
  { schemaInit "S" wEmptySpec with
    properties := [("own", propertyInit "S" "own" wPSpec), ("x", wForeignProp)] }

/-- The schema names of `wSpecsC`, in generation order. -/
def wNamesC : List String := ["R1", "R2", "C"]

/-- The generated model of the spec §8 scenario. -/
def wGenRes : Model :=
  ((generateAll 5 (initModel wSpecs) wNames).toOption).getD []

/-- The generated model of the diamond-conflict scenario. -/
def wGenResC : Model :=
  ((generateAll 5 (initModel wSpecsC) wNamesC).toOption).getD []

/-- A schema `M` with a recorded descendant `D` (matchable-set witness). -/
def wS6 : Schema := { schemaInit "M" wEmptySpec with descendants := {"D"} }

/-- The two-schema model holding `wS6` and `D`. -/
def wM6 : Model := [("M", wS6), ("D", schemaInit "D" wEmptySpec)]

/-- A schema with one `name` property that is also required
(validation witnesses). -/
def wVSchema : Schema :=
  schemaInit "V"
    { wEmptySpec with properties := [("name", wPSpec)], required := ["name"] }

/-! ### Association list and model-update lemmas -/

theorem alookup_append_left {β : Type} {l1 l2 : List (String × β)} {k : String}
    {v : β} (h : alookup l1 k = some v) : alookup (l1 ++ l2) k = some v := by
  induction l1 with
  | nil => simp [alookup] at h
  | cons e rest ih =>
    by_cases he : e.1 = k
    · simp [alookup, he] at h ⊢; exact h
    · simp [alookup, he] at h ⊢; exact ih h

theorem alookup_append_right {β : Type} {l1 l2 : List (String × β)}
    {k : String} (h : alookup l1 k = none) :
    alookup (l1 ++ l2) k = alookup l2 k := by
  induction l1 with
  | nil => rfl
  | cons e rest ih =>
    by_cases he : e.1 = k
    · simp [alookup, he] at h
    · simp [alookup, he] at h ⊢; exact ih h

theorem mem_keys_of_alookup {β : Type} {l : List (String × β)} {k : String}
    {v : β} (h : alookup l k = some v) : k ∈ l.map Prod.fst := by
  induction l with
  | nil => simp [alookup] at h
  | cons e rest ih =>
    by_cases he : e.1 = k
    · simp [he]
    · simp [alookup, he] at h; simp [ih h]

theorem alookup_eq_none {β : Type} {l : List (String × β)} {k : String}
    (h : k ∉ l.map Prod.fst) : alookup l k = none := by
  cases hl : alookup l k with
  | none => rfl
  | some v => exact absurd (mem_keys_of_alookup hl) h

theorem alookup_mem {β : Type} {l : List (String × β)} {k : String} {v : β}
    (h : alookup l k = some v) : (k, v) ∈ l := by
  induction l with
  | nil => simp [alookup] at h
  | cons e rest ih =>
    obtain ⟨a, b⟩ := e
    by_cases he : a = k
    · simp [alookup, he] at h
      subst he
      subst h
      exact List.mem_cons_self _ _
    · simp [alookup, he] at h
      exact List.mem_cons_of_mem _ (ih h)

theorem alookup_of_mem_nodup {β : Type} {l : List (String × β)} {k : String}
    {v : β} (hnd : (l.map Prod.fst).Nodup) (h : (k, v) ∈ l) :
    alookup l k = some v := by
  induction l with
  | nil => simp at h
  | cons e rest ih =>
    rcases List.mem_cons.mp h with h | h
    · simp [← h, alookup]
    · have hk : k ∈ rest.map Prod.fst :=
        List.mem_map.mpr ⟨(k, v), h, rfl⟩
      have he : e.1 ≠ k := by
        intro heq
        exact (List.nodup_cons.mp hnd).1 (heq ▸ hk)
      simp [alookup, he]
      exact ih (List.nodup_cons.mp hnd).2 h

theorem alookup_isSome_iff {β : Type} {l : List (String × β)} {k : String} :
    (alookup l k).isSome = true ↔ k ∈ l.map Prod.fst := by
  induction l with
  | nil => simp [alookup]
  | cons e rest ih =>
    by_cases he : e.1 = k
    · simp [alookup, he]
    · simp [alookup, he, ih, fun h => he (Eq.symm h)]
      intro h
      exact absurd h.symm he

theorem mget_mupdate_self {m : Model} {k : String} {f : Schema → Schema} :
    mget (mupdate m k f) k = (mget m k).map f := by
  induction m with
  | nil => rfl
  | cons e rest ih =>
    by_cases he : e.1 = k
    · simp [mget, mupdate, alookup, he]
    · simp [mget, mupdate, alookup, he] at ih ⊢; exact ih

theorem mget_mupdate_ne {m : Model} {k j : String} {f : Schema → Schema}
    (h : j ≠ k) : mget (mupdate m k f) j = mget m j := by
  induction m with
  | nil => rfl
  | cons e rest ih =>
    by_cases he : e.1 = k
    · have hkj : k ≠ j := fun hh => h hh.symm
      simp [mget, mupdate, alookup, he, hkj] at ih ⊢
      exact ih
    · by_cases hj : e.1 = j
      · simp [mget, mupdate, alookup, he, hj, h]
      · simp [mget, mupdate, alookup, he, hj] at ih ⊢; exact ih

theorem mget_addDesc_mem {m : Model} {A : Finset String} {c j : String}
    (h : j ∈ A) : mget (addDesc m A c) j = (mget m j).map (addDescS · c) := by
  induction m with
  | nil => rfl
  | cons e rest ih =>
    by_cases hj : e.1 = j
    · simp [mget, addDesc, alookup, hj, h]
    · by_cases hA : e.1 ∈ A <;>
        · simp [mget, addDesc, alookup, hj, hA] at ih ⊢; exact ih

theorem mget_addDesc_not_mem {m : Model} {A : Finset String} {c j : String}
    (h : j ∉ A) : mget (addDesc m A c) j = mget m j := by
  induction m with
  | nil => rfl
  | cons e rest ih =>
    by_cases hj : e.1 = j
    · simp [mget, addDesc, alookup, hj, h]
    · by_cases hA : e.1 ∈ A <;>
        · simp [mget, addDesc, alookup, hj, hA] at ih ⊢; exact ih

theorem keys_mupdate {m : Model} {k : String} {f : Schema → Schema} :
    (mupdate m k f).map Prod.fst = m.map Prod.fst := by
  induction m with
  | nil => rfl
  | cons e rest ih =>
    by_cases he : e.1 = k <;> simp [mupdate, he] at ih ⊢ <;> exact ih

theorem keys_addDesc {m : Model} {A : Finset String} {c : String} :
    (addDesc m A c).map Prod.fst = m.map Prod.fst := by
  induction m with
  | nil => rfl
  | cons e rest ih =>
    by_cases hA : e.1 ∈ A <;> simp [addDesc, hA] at ih ⊢ <;> exact ih

/-! ### `mergeProps` lemmas -/

theorem mergeProps_nil {own : List (String × Property)} :
    mergeProps own [] = own := rfl

theorem mergeProps_cons {own : List (String × Property)}
    {np : String × Property} {rest : List (String × Property)} :
    mergeProps own (np :: rest) =
      mergeProps (if (alookup own np.1).isSome then own else own ++ [np])
        rest := rfl

theorem mergeProps_preserves {own inh : List (String × Property)}
    {k : String} {v : Property} (h : alookup own k = some v) :
    alookup (mergeProps own inh) k = some v := by
  induction inh generalizing own with
  | nil => exact h
  | cons np rest ih =>
    rw [mergeProps_cons]
    by_cases hp : (alookup own np.1).isSome
    · simp [hp]; exact ih h
    · simp [hp]; exact ih (alookup_append_left h)

theorem mergeProps_origin {own inh : List (String × Property)}
    {np : String × Property} (h : np ∈ mergeProps own inh) :
    np ∈ own ∨ np ∈ inh := by
  induction inh generalizing own with
  | nil => exact Or.inl h
  | cons q rest ih =>
    rw [mergeProps_cons] at h
    by_cases hp : (alookup own q.1).isSome
    · simp [hp] at h
      rcases ih h with h | h
      · exact Or.inl h
      · exact Or.inr (List.mem_cons_of_mem _ h)
    · simp [hp] at h
      rcases ih h with h | h
      · rcases List.mem_append.mp h with h | h
        · exact Or.inl h
        · simp at h
          exact Or.inr (h ▸ List.mem_cons_self _ _)
      · exact Or.inr (List.mem_cons_of_mem _ h)

theorem mergeProps_keys_nodup {own inh : List (String × Property)}
    (h : (own.map Prod.fst).Nodup) :
    ((mergeProps own inh).map Prod.fst).Nodup := by
  induction inh generalizing own with
  | nil => exact h
  | cons q rest ih =>
    rw [mergeProps_cons]
    by_cases hp : (alookup own q.1).isSome
    · simp [hp]; exact ih h
    · simp [hp]
      apply ih
      rw [List.map_append]
      refine List.Nodup.append h (by simp) ?_
      intro x hx hx'
      simp at hx'
      rw [hx'] at hx
      have hnone : alookup own q.1 = none := by
        cases hq : alookup own q.1 with
        | none => rfl
        | some w => rw [hq] at hp; simp at hp
      rw [alookup_isSome_iff.mpr hx] at hp
      exact hp rfl

theorem mergeProps_parent_present {own inh : List (String × Property)}
    {k : String} {v : Property} (h : alookup inh k = some v) :
    (alookup (mergeProps own inh) k).isSome := by
  induction inh generalizing own with
  | nil => simp [alookup] at h
  | cons q rest ih =>
    rw [mergeProps_cons]
    by_cases hq : q.1 = k
    · by_cases hp : (alookup own q.1).isSome
      · simp [hp]
        obtain ⟨w, hw⟩ := Option.isSome_iff_exists.mp hp
        rw [hq] at hw
        rw [mergeProps_preserves hw]
        rfl
      · simp [hp]
        have hnone : alookup own k = none := by
          cases hl : alookup own k with
          | none => rfl
          | some w => rw [hq, hl] at hp; simp at hp
        have hap : alookup (own ++ [q]) k = some q.2 := by
          rw [alookup_append_right hnone]
          simp [alookup, hq]
        rw [mergeProps_preserves hap]
        rfl
    · simp [alookup, hq] at h
      by_cases hp : (alookup own q.1).isSome <;> simp [hp] <;> exact ih h

/-! ### Closure lemmas -/

theorem mem_unionF {F : String → Finset String} {ps : List String}
    {a : String} : a ∈ unionF F ps ↔ ∃ p ∈ ps, a ∈ F p := by
  induction ps with
  | nil => simp [unionF]
  | cons p rest ih =>
    simp [unionF] at ih ⊢
    rw [ih]

theorem unionF_congr {F G : String → Finset String} {ps : List String}
    (h : ∀ p ∈ ps, F p = G p) : unionF F ps = unionF G ps := by
  induction ps with
  | nil => rfl
  | cons p rest ih =>
    show F p ∪ unionF F rest = G p ∪ unionF G rest
    rw [h p (List.mem_cons_self _ _),
        ih (fun q hq => h q (List.mem_cons_of_mem _ hq))]

theorem mem_clF_self {g : String → List String} (f : Nat) (k : String) :
    k ∈ clF g f k := by
  cases f with
  | zero => simp [clF]
  | succ f => simp [clF]

theorem g_nil_of_rank_zero {g : String → List String} {rank : String → Nat}
    (hR : RkG g rank) {k : String} (h : rank k = 0) : g k = [] := by
  cases hgk : g k with
  | nil => rfl
  | cons p ps =>
    have := hR k p (by rw [hgk]; exact List.mem_cons_self _ _)
    omega

theorem clF_stab {g : String → List String} {rank : String → Nat}
    (hR : RkG g rank) :
    ∀ f k, rank k ≤ f → clF g f k = clF g (rank k) k := by
  intro f
  induction f using Nat.strong_induction_on with
  | _ f ih =>
    intro k hk
    rcases Nat.eq_or_lt_of_le hk with h | h
    · rw [← h]
    · obtain ⟨f', rfl⟩ : ∃ f', f = f' + 1 := ⟨f - 1, by omega⟩
      cases hrkv : rank k with
      | zero =>
        have hg := g_nil_of_rank_zero hR hrkv
        simp [clF, hg, unionF]
      | succ r =>
        show insert k (unionF (clF g f') (g k)) = insert k (unionF (clF g r) (g k))
        have h1 : ∀ p ∈ g k, clF g f' p = clF g (rank p) p := by
          intro p hp
          have hpk := hR k p hp
          rw [hrkv] at hpk
          exact ih f' (by omega) p (by omega)
        have h2 : ∀ p ∈ g k, clF g r p = clF g (rank p) p := by
          intro p hp
          have hpk := hR k p hp
          rw [hrkv] at hpk
          exact ih r (by omega) p (by omega)
        rw [unionF_congr h1, unionF_congr h2]

theorem CLr_fixed {g : String → List String} {rank : String → Nat}
    (hR : RkG g rank) (k : String) :
    CLr g rank k = insert k (unionCLr g rank (g k)) := by
  unfold CLr unionCLr
  cases hrk : rank k with
  | zero =>
    have hg := g_nil_of_rank_zero hR hrk
    simp [clF, hg, unionF]
  | succ r =>
    show insert k (unionF (clF g r) (g k)) = _
    congr 1
    apply unionF_congr
    intro p hp
    have hpk := hR k p hp
    rw [hrk] at hpk
    unfold CLr
    exact clF_stab hR r p (by omega)

theorem self_mem_CLr {g : String → List String} {rank : String → Nat}
    (k : String) : k ∈ CLr g rank k := mem_clF_self _ _

theorem mem_unionCLr {g : String → List String} {rank : String → Nat}
    {ps : List String} {a : String} :
    a ∈ unionCLr g rank ps ↔ ∃ p ∈ ps, a ∈ CLr g rank p := mem_unionF

theorem CLr_parent_sub {g : String → List String} {rank : String → Nat}
    (hR : RkG g rank) {p k : String} (hp : p ∈ g k) :
    CLr g rank p ⊆ CLr g rank k := by
  intro a ha
  rw [CLr_fixed hR k]
  exact Finset.mem_insert_of_mem (mem_unionCLr.mpr ⟨p, hp, ha⟩)

theorem mem_CLr_of_parent {g : String → List String} {rank : String → Nat}
    (hR : RkG g rank) {p k : String} (hp : p ∈ g k) : p ∈ CLr g rank k :=
  CLr_parent_sub hR hp (self_mem_CLr p)

theorem rank_le_of_mem_clF {g : String → List String} {rank : String → Nat}
    (hR : RkG g rank) :
    ∀ f k a, a ∈ clF g f k → rank a ≤ rank k := by
  intro f
  induction f with
  | zero =>
    intro k a ha
    simp [clF] at ha
    rw [ha]
  | succ f ih =>
    intro k a ha
    simp only [clF] at ha
    rcases Finset.mem_insert.mp ha with h | h
    · rw [h]
    · obtain ⟨p, hp, hap⟩ := mem_unionF.mp h
      have := ih p a hap
      have := hR k p hp
      omega

theorem rank_le_of_mem_CLr {g : String → List String} {rank : String → Nat}
    (hR : RkG g rank) {k a : String} (h : a ∈ CLr g rank k) :
    rank a ≤ rank k := rank_le_of_mem_clF hR _ k a h

theorem CLr_trans {g : String → List String} {rank : String → Nat}
    (hR : RkG g rank) {k a : String} (h : a ∈ CLr g rank k) :
    CLr g rank a ⊆ CLr g rank k := by
  suffices H : ∀ n k a, rank k ≤ n → a ∈ CLr g rank k →
      CLr g rank a ⊆ CLr g rank k from H (rank k) k a le_rfl h
  intro n
  induction n with
  | zero =>
    intro k a hle ha
    have h0 : rank k = 0 := by omega
    have hck : CLr g rank k = {k} := by
      unfold CLr
      rw [h0]
      simp [clF]
    rw [hck] at ha
    simp at ha
    subst ha
    exact subset_rfl
  | succ n ih =>
    intro k a hle ha
    rw [CLr_fixed hR k] at ha
    rcases Finset.mem_insert.mp ha with h1 | h1
    · rw [h1]
    · obtain ⟨p, hp, hap⟩ := mem_unionCLr.mp h1
      have hpk := hR k p hp
      exact (ih p a (by omega) hap).trans (CLr_parent_sub hR hp)

/-! ### Validation engine lemmas -/

theorem errFor_congr {α : Type} {gt : String → String}
    {pv : Property → List α → Option String} {s : Schema}
    {props1 props2 : List (String × List α)} {np : String × Property}
    (h : alookup props1 np.1 = alookup props2 np.1) :
    errFor gt pv s props1 np = errFor gt pv s props2 np := by
  unfold errFor
  rw [h]

theorem validateErrors_foldl {α : Type} (gt : String → String)
    (pv : Property → List α → Option String) (s : Schema)
    (props : List (String × List α)) :
    ∀ (l : List (String × Property)) (acc : List (String × String)),
      l.foldl (fun errors np =>
        match errFor gt pv s props np with
        | some e => errors ++ [(np.1, e)]
        | none => errors) acc =
      acc ++ l.filterMap
        (fun np => (errFor gt pv s props np).map (fun e => (np.1, e))) := by
  intro l
  induction l with
  | nil => intro acc; simp
  | cons np rest ih =>
    intro acc
    cases h : errFor gt pv s props np with
    | some e => simp [List.foldl, h, ih]
    | none => simp [List.foldl, h, ih]

theorem validateErrors_eq_filterMap {α : Type} (gt : String → String)
    (pv : Property → List α → Option String) (s : Schema)
    (props : List (String × List α)) :
    validateErrors gt pv s props =
      s.properties.filterMap
        (fun np => (errFor gt pv s props np).map (fun e => (np.1, e))) := by
  unfold validateErrors
  simpa using validateErrors_foldl gt pv s props s.properties []

theorem alookup_filterMap_none {β γ : Type} {l : List (String × β)}
    {F : String × β → Option γ} {nm : String}
    (h : nm ∉ l.map Prod.fst) :
    alookup (l.filterMap (fun np => (F np).map (fun e => (np.1, e)))) nm =
      none := by
  apply alookup_eq_none
  intro hmem
  obtain ⟨x, hx, hx1⟩ := List.mem_map.mp hmem
  obtain ⟨np, hnp, hfx⟩ := List.mem_filterMap.mp hx
  cases hF : F np with
  | none => rw [hF] at hfx; simp at hfx
  | some e =>
    rw [hF] at hfx
    simp at hfx
    apply h
    rw [← hx1, ← hfx]
    exact List.mem_map.mpr ⟨np, hnp, rfl⟩

theorem alookup_filterMap_assoc {β γ : Type} (F : String × β → Option γ) :
    ∀ (l : List (String × β)), (l.map Prod.fst).Nodup → ∀ nm,
      alookup (l.filterMap (fun np => (F np).map (fun e => (np.1, e)))) nm =
        (alookup l nm).bind (fun v => F (nm, v)) := by
  intro l
  induction l with
  | nil => intro _ nm; simp [alookup]
  | cons np rest ih =>
    intro hnd nm
    obtain ⟨k, v⟩ := np
    by_cases he : k = nm
    · subst he
      cases hF : F (k, v) with
      | some e => simp [List.filterMap_cons, hF, alookup]
      | none =>
        simp only [List.filterMap_cons, hF, Option.map_none']
        have hk : k ∉ rest.map Prod.fst := by
          have := List.nodup_cons.mp hnd
          simpa using this.1
        rw [alookup_filterMap_none hk]
        simp [alookup, hF]
    · cases hF : F (k, v) with
      | some e =>
        simp only [List.filterMap_cons, hF, Option.map_some']
        simp only [alookup, he, if_neg he]
        exact ih (List.nodup_cons.mp hnd).2 nm
      | none =>
        simp only [List.filterMap_cons, hF, Option.map_none']
        simp only [alookup, if_neg he]
        exact ih (List.nodup_cons.mp hnd).2 nm

theorem validateErrors_lookup {α : Type} (gt : String → String)
    (pv : Property → List α → Option String) (s : Schema)
    (props : List (String × List α))
    (hnd : (s.properties.map Prod.fst).Nodup) (nm : String) :
    alookup (validateErrors gt pv s props) nm =
      (alookup s.properties nm).bind
        (fun p => errFor gt pv s props (nm, p)) := by
  rw [validateErrors_eq_filterMap]
  exact alookup_filterMap_assoc (errFor gt pv s props) s.properties hnd nm

theorem validateErrors_congr {α : Type} (gt : String → String)
    (pv : Property → List α → Option String) (s : Schema)
    {props1 props2 : List (String × List α)}
    (h : ∀ np ∈ s.properties, alookup props1 np.1 = alookup props2 np.1) :
    validateErrors gt pv s props1 = validateErrors gt pv s props2 := by
  rw [validateErrors_eq_filterMap, validateErrors_eq_filterMap]
  apply List.filterMap_congr
  intro np hnp
  rw [errFor_congr (h np hnp)]

theorem alookup_filter_key {β : Type} (q : String → Bool)
    {l : List (String × β)} {k : String} (hq : q k = true) :
    alookup (l.filter (fun e => q e.1)) k = alookup l k := by
  induction l with
  | nil => rfl
  | cons e rest ih =>
    by_cases he : e.1 = k
    · have hqe : q e.1 = true := by rw [he]; exact hq
      simp [List.filter_cons, hqe, alookup, he, hq]
    · cases hqe : q e.1 with
      | true => simp [List.filter_cons, hqe, alookup, he, ih]
      | false => simp [List.filter_cons, hqe, alookup, he, ih]

/-! ### Claim theorems: constructor, serialisation, matchable set -/

/-- **C9**: after construction the `hidden` flag is false whenever the
`abstract` flag is true, regardless of the value supplied for `hidden`;
when `abstract` is false, `hidden` equals the supplied boolean (defaulting
to false). -/
theorem C9_hidden_forced_by_abstract (n : String) (d : SchemaSpec) :
    (schemaInit n d).abstract = d.abstract.getD false ∧
    (d.abstract.getD false = true → (schemaInit n d).hidden = false) ∧
    (d.abstract.getD false = false →
      (schemaInit n d).hidden = d.hidden.getD false) := by
  refine ⟨rfl, fun h => ?_, fun h => ?_⟩ <;> simp [schemaInit, h]

/-- Witness for C9: `abstract:true, hidden:true` yields `hidden = false`;
`abstract` absent with `hidden:true` yields `hidden = true`. -/
theorem C9_witness :
    (schemaInit "A"
      { wEmptySpec with abstract := some true, hidden := some true }).hidden
      = false ∧
    (schemaInit "B" { wEmptySpec with hidden := some true }).hidden = true := by
  constructor
  · exact (C9_hidden_forced_by_abstract "A" _).2.1 rfl
  · rw [(C9_hidden_forced_by_abstract "B"
      { wEmptySpec with hidden := some true }).2.2 rfl]
    decide

/-- **C7 counterexample**: a schema left at all defaults has
`matchable = true` — the default — yet `to_dict()` emits the key
`matchable`, so the flag is serialised exactly when it does *not* differ
from its default, contradicting the claim that absence always means the
default. -/
theorem C7_counterexample :
    (schemaInit "T" wEmptySpec).matchable = true ∧
    (toDict id (schemaInit "T" wEmptySpec)).matchable = some true ∧
    ¬((toDict id (schemaInit "T" wEmptySpec)).matchable = none) := by
  refine ⟨rfl, rfl, ?_⟩
  intro h
  simp [toDict, schemaInit, wEmptySpec] at h

/-- **C7 amended**: `featured`, `required`, `caption` and the (localised)
description are serialised iff non-empty; `abstract`, `hidden`, `generated`
are serialised (as `true`) iff they differ from their default `false`; but
`matchable` is serialised iff it is `true` — i.e. iff it *equals* its
default — so for `matchable` alone, absence means the non-default value
`false`. -/
theorem C7_sparse_serialisation (gt : String → String) (s : Schema) :
    ((toDict gt s).featured = none ↔ s.featured = []) ∧
    (s.featured ≠ [] → (toDict gt s).featured = some s.featured) ∧
    ((toDict gt s).required = none ↔ s.required = []) ∧
    (s.required ≠ [] → (toDict gt s).required = some s.required) ∧
    ((toDict gt s).caption = none ↔ s.caption = []) ∧
    (s.caption ≠ [] → (toDict gt s).caption = some s.caption) ∧
    ((toDict gt s).description = none ↔
      s.descriptionKey.map gt = none ∨ s.descriptionKey.map gt = some "") ∧
    ((toDict gt s).abstract = if s.abstract then some true else none) ∧
    ((toDict gt s).hidden = if s.hidden then some true else none) ∧
    ((toDict gt s).generated = if s.generated then some true else none) ∧
    ((toDict gt s).matchable = if s.matchable then some true else none) := by
  refine ⟨?_, ?_, ?_, ?_, ?_, ?_, ?_, rfl, rfl, rfl, rfl⟩
  · cases hf : s.featured <;> simp [toDict, hf]
  · intro h
    cases hf : s.featured with
    | nil => exact absurd hf h
    | cons a l => simp [toDict, hf]
  · cases hf : s.required <;> simp [toDict, hf]
  · intro h
    cases hf : s.required with
    | nil => exact absurd hf h
    | cons a l => simp [toDict, hf]
  · cases hf : s.caption <;> simp [toDict, hf]
  · intro h
    cases hf : s.caption with
    | nil => exact absurd hf h
    | cons a l => simp [toDict, hf]
  · cases hd : s.descriptionKey with
    | none => simp [toDict, hd]
    | some d0 =>
      by_cases hg : gt d0 = "" <;> simp [toDict, hd, hg]

/-- Witness for C7's amended theorem at a schema with non-empty lists and
description. -/
theorem C7_witness :
    (toDict id (schemaInit "S" wSpec7)).featured = some ["a"] ∧
    (toDict id (schemaInit "S" wSpec7)).required = some ["b"] ∧
    (toDict id (schemaInit "S" wSpec7)).caption = some ["c"] := by
  have h := C7_sparse_serialisation id (schemaInit "S" wSpec7)
  exact ⟨h.2.1 (by simp [schemaInit, wSpec7, wEmptySpec]),
         h.2.2.2.1 (by simp [schemaInit, wSpec7, wEmptySpec]),
         h.2.2.2.2.2.1 (by simp [schemaInit, wSpec7, wEmptySpec])⟩

/-- **C8**: `to_dict()` emits the edge block iff source, target and the
localised edge label are all present and non-empty (in particular the block
is omitted when `edge` is structurally true but the localised label is
empty), and the serialised `properties` entry holds exactly the properties
whose owning schema is the schema itself — never ones owned by another
schema (inherited ones). -/
theorem C8_edge_block_and_local_properties (gt : String → String)
    (s : Schema) :
    ((toDict gt s).edge ≠ none ↔
      ∃ src tgt, s.edge_source = some src ∧ s.edge_target = some tgt ∧
        src ≠ "" ∧ tgt ≠ "" ∧ gt s.edgeLabelKey ≠ "") ∧
    (s.edge = true → gt s.edgeLabelKey = "" → (toDict gt s).edge = none) ∧
    (∀ np : String × Property,
      np ∈ (toDict gt s).properties ↔
        np ∈ s.properties ∧ np.2.schema = s.name) ∧
    (∀ np : String × Property, np ∈ s.properties → np.2.schema ≠ s.name →
      np ∉ (toDict gt s).properties) := by
  refine ⟨?_, ?_, ?_, ?_⟩
  · cases hsrc : s.edge_source with
    | none => simp [toDict, hsrc]
    | some src =>
      cases htgt : s.edge_target with
      | none => simp [toDict, hsrc, htgt]
      | some tgt =>
        by_cases hc : src ≠ "" ∧ tgt ≠ "" ∧ gt s.edgeLabelKey ≠ "" <;>
          simp [toDict, hsrc, htgt, hc]
  · intro _ hlab
    cases hsrc : s.edge_source with
    | none => simp [toDict, hsrc]
    | some src =>
      cases htgt : s.edge_target with
      | none => simp [toDict, hsrc, htgt]
      | some tgt => simp [toDict, hsrc, htgt, hlab]
  · intro np
    simp [toDict, List.mem_filter]
  · intro np hmem hne
    simp [toDict, List.mem_filter]
    intro _
    exact hne

/-- Witness for C8: with an edge label localised to the empty string the
block is dropped although `edge` is true; with a non-empty label it is
emitted; the mixed schema serialises its own property and drops the
inherited one. -/
theorem C8_witness :
    (toDict (fun _ => "") (schemaInit "E" wEdgeSpecS)).edge = none ∧
    (toDict id (schemaInit "E" wEdgeSpecS)).edge ≠ none ∧
    ("own", propertyInit "S" "own" wPSpec) ∈ (toDict id wMixedSchema).properties ∧
    ("x", wForeignProp) ∉ (toDict id wMixedSchema).properties := by
  refine ⟨?_, ?_, ?_, ?_⟩
  · exact (C8_edge_block_and_local_properties (fun _ => "")
      (schemaInit "E" wEdgeSpecS)).2.1 rfl rfl
  · exact (C8_edge_block_and_local_properties id
      (schemaInit "E" wEdgeSpecS)).1.mpr
      ⟨"src", "tgt", rfl, rfl, by decide, by decide, by decide⟩
  · exact ((C8_edge_block_and_local_properties id wMixedSchema).2.2.1 _).mpr
      ⟨by simp [wMixedSchema], rfl⟩
  · exact (C8_edge_block_and_local_properties id wMixedSchema).2.2.2 _
      (by simp [wMixedSchema]) (by decide)

/-- **C6**: for a schema whose cache is still empty, `matchable_schemata`
is empty when `matchable` is false, and otherwise consists of exactly the
members of `schemata ∪ descendants` whose own `matchable` flag is true; the
computed set is memoized into the object, any later access (against any
model) returns the same set, and `can_match(other)` is true iff `other`
belongs to the set. -/
theorem C6_matchable_schemata (m : Model) (s : Schema)
    (h : s.matchableCache = none) :
    (∀ x, x ∈ (matchableSchemata m s).2 ↔
      (s.matchable = true ∧ (x ∈ s.schemata ∨ x ∈ s.descendants) ∧
        ∃ t, mget m x = some t ∧ t.matchable = true)) ∧
    (s.matchable = false → (matchableSchemata m s).2 = ∅) ∧
    ((matchableSchemata m s).1.matchableCache =
      some (matchableSchemata m s).2) ∧
    (∀ m2 : Model, matchableSchemata m2 (matchableSchemata m s).1 =
      ((matchableSchemata m s).1, (matchableSchemata m s).2)) ∧
    (∀ other : Schema, (canMatch m s other).2 = true ↔
      other.name ∈ (matchableSchemata m s).2) := by
  refine ⟨?_, ?_, ?_, ?_, ?_⟩
  · intro x
    cases hm : s.matchable with
    | false => simp [matchableSchemata, h, hm]
    | true =>
      simp only [matchableSchemata, h, hm, if_true]
      rw [Finset.mem_filter, Finset.mem_union]
      constructor
      · rintro ⟨hx, hpred⟩
        refine ⟨by simp [hm], hx, ?_⟩
        cases hg : mget m x with
        | none => rw [hg] at hpred; simp at hpred
        | some t =>
          rw [hg] at hpred
          simp at hpred
          exact ⟨t, rfl, hpred⟩
      · rintro ⟨-, hx, t, ht, htm⟩
        exact ⟨hx, by rw [ht]; simp [htm]⟩
  · intro hm
    simp [matchableSchemata, h, hm]
  · simp [matchableSchemata, h]
  · intro m2
    simp [matchableSchemata, h]
  · intro other
    simp [canMatch]

/-- Witness for C6 at a two-schema model where `M` has a descendant `D`. -/
theorem C6_witness :
    "D" ∈ (matchableSchemata wM6 wS6).2 ∧
    (canMatch wM6 wS6 (schemaInit "D" wEmptySpec)).2 = true := by
  have h := C6_matchable_schemata wM6 wS6 rfl
  have hd : "D" ∈ (matchableSchemata wM6 wS6).2 :=
    (h.1 "D").mpr ⟨rfl, Or.inr (by decide),
      ⟨schemaInit "D" wEmptySpec, by decide, rfl⟩⟩
  exact ⟨hd, (h.2.2.2.2 (schemaInit "D" wEmptySpec)).mpr hd⟩

/-- **C4**: `validate()` visits every property of the merged map (not only
input keys), defaulting absent values to the empty list; the collected error
mapping binds each property name to its value-level error, or to
`"Required"` when there is no value-level error, the value list is empty and
the name is required; errors for all properties are collected in one pass,
and the call raises the entity-validation error with the full mapping iff
the mapping is non-empty, succeeding with no output otherwise. -/
theorem C4_validate_aggregation {α : Type} (gt : String → String)
    (pv : Property → List α → Option String) (s : Schema)
    (data : Option (List (String × List α)))
    (hnd : (s.properties.map Prod.fst).Nodup) :
    (validate gt pv s data = Except.ok () ↔
      validateErrors gt pv s (data.getD []) = []) ∧
    (validateErrors gt pv s (data.getD []) ≠ [] →
      validate gt pv s data =
        Except.error { msg := gt "Entity validation failed",
                       errors := validateErrors gt pv s (data.getD []) }) ∧
    (∀ nm, alookup (validateErrors gt pv s (data.getD [])) nm =
      (alookup s.properties nm).bind
        (fun p => errFor gt pv s (data.getD []) (nm, p))) ∧
    (∀ nm p, alookup s.properties nm = some p →
      pv p ((alookup (data.getD []) nm).getD []) = none →
      (alookup (data.getD []) nm).getD [] = [] →
      p.name ∈ s.required →
      alookup (validateErrors gt pv s (data.getD [])) nm =
        some (gt "Required")) := by
  refine ⟨?_, ?_, ?_, ?_⟩
  · unfold validate
    cases he : validateErrors gt pv s (data.getD []) with
    | nil => simp [he]
    | cons a l => simp [he]
  · intro hne
    unfold validate
    cases he : validateErrors gt pv s (data.getD []) with
    | nil => exact absurd he hne
    | cons a l => simp [he]
  · exact fun nm => validateErrors_lookup gt pv s (data.getD []) hnd nm
  · intro nm p hp hpv hempty hreq
    rw [validateErrors_lookup gt pv s (data.getD []) hnd nm, hp]
    rw [hempty] at hpv
    simp [errFor, hempty, hpv, hreq]

/-- Witness for C4: on the required-`name` schema, an empty input produces
exactly the error mapping `{"name": "Required"}` and the call raises. -/
theorem C4_witness :
    validateErrors id (fun (_ : Property) (_ : List String) => none) wVSchema [] =
      [("name", "Required")] ∧
    validate id (fun (_ : Property) (_ : List String) => none) wVSchema none =
      Except.error { msg := "Entity validation failed",
                     errors := [("name", "Required")] } := by
  have h := C4_validate_aggregation id
    (fun (_ : Property) (_ : List String) => none) wVSchema none (by decide)
  have he : validateErrors id (fun (_ : Property) (_ : List String) => none) wVSchema [] =
      [("name", "Required")] := by decide
  exact ⟨he, by
    have := h.2.1 (by rw [show (none : Option (List (String × List String))).getD [] = [] from rfl, he]; simp)
    simpa [he] using this⟩

/-- **C10**: `validate()` mutates nothing — the schema object and the
caller's input are unchanged whether the call succeeds or raises — and
input keys that are not property names of the schema are ignored when
computing the result (dropping them from the input does not change the
outcome; they are not removed from the caller's object). -/
theorem C10_validate_pure {α : Type} (gt : String → String)
    (pv : Property → List α → Option String) (s : Schema)
    (data : Option (List (String × List α))) :
    (validateS gt pv s data).1 = s ∧
    (validateS gt pv s data).2.1 = data ∧
    validate gt pv s data =
      validate gt pv s
        (some ((data.getD []).filter
          (fun e => (alookup s.properties e.1).isSome))) := by
  refine ⟨rfl, rfl, ?_⟩
  unfold validate
  have hcong : validateErrors gt pv s (data.getD []) =
      validateErrors gt pv s
        ((data.getD []).filter (fun e => (alookup s.properties e.1).isSome)) := by
    apply validateErrors_congr
    intro np hnp
    exact (alookup_filter_key (fun n => (alookup s.properties n).isSome) (by
      rw [alookup_isSome_iff]
      exact List.mem_map.mpr ⟨np, hnp, rfl⟩)).symm
  simp only [Option.getD_some]
  rw [hcong]

/-! ### Frame and core-preservation lemmas -/

theorem sameCore_refl (s : Schema) : sameCore s s := by
  unfold sameCore
  repeat constructor <;> try rfl

theorem sameCore_trans {s t u : Schema} (h1 : sameCore s t)
    (h2 : sameCore t u) : sameCore s u := by
  unfold sameCore at *
  obtain ⟨a1, a2, a3, a4, a5, a6, a7, a8, a9, a10, a11, a12, a13, a14, a15,
    a16, a17, a18, a19⟩ := h1
  obtain ⟨b1, b2, b3, b4, b5, b6, b7, b8, b9, b10, b11, b12, b13, b14, b15,
    b16, b17, b18, b19⟩ := h2
  exact ⟨b1.trans a1, b2.trans a2, b3.trans a3, b4.trans a4, b5.trans a5,
    b6.trans a6, b7.trans a7, b8.trans a8, b9.trans a9, b10.trans a10,
    b11.trans a11, b12.trans a12, b13.trans a13, b14.trans a14,
    b15.trans a15, b16.trans a16, b17.trans a17, b18.trans a18,
    b19.trans a19⟩

theorem Frame_refl (m : Model) : Frame m m := by
  refine ⟨fun k h => h, fun k s h => ⟨s, h, sameCore_refl s, subset_rfl,
    subset_rfl, subset_rfl, subset_rfl, fun nm v hv => hv⟩⟩

theorem Frame_trans {m1 m2 m3 : Model} (h1 : Frame m1 m2)
    (h2 : Frame m2 m3) : Frame m1 m3 := by
  refine ⟨fun k h => h2.1 k (h1.1 k h), fun k s h => ?_⟩
  obtain ⟨t, ht, hc, h3, h4, h5, h6, h7⟩ := h1.2 k s h
  obtain ⟨u, hu, hc2, h8, h9, h10, h11, h12⟩ := h2.2 k t ht
  exact ⟨u, hu, sameCore_trans hc hc2, h3.trans h8, h4.trans h9,
    h5.trans h10, h6.trans h11, fun nm v hv => h12 nm v (h7 nm v hv)⟩

theorem mget_none_iff {m : Model} {k : String} :
    mget m k = none ↔ k ∉ m.map Prod.fst := by
  constructor
  · intro h hk
    rw [← alookup_isSome_iff] at hk
    rw [show mget m k = alookup m k from rfl] at h
    rw [h] at hk
    simp at hk
  · exact alookup_eq_none

/-! ### Inversion lemmas for `generate` and `genParents` -/

theorem genParentsF_eq (fuel : Nat) :
    genParentsF (fun m2 p => generate fuel m2 p) = genParents fuel := rfl

theorem generate_zero {m : Model} {n : String} :
    generate 0 m n = .error .fuel := by
  unfold generate
  rfl

theorem generate_succ_inv {fuel : Nat} {m m' : Model} {n : String}
    (h : generate (fuel + 1) m n = .ok m') :
    ∃ s0 s1, mget m n = some s0 ∧
      genParents fuel m n s0.extNames = .ok m' ∧
      mget m' n = some s1 ∧ postChecks s1 = Except.ok () := by
  unfold generate at h
  split at h
  · simp at h
  · rename_i s0 hm0
    split at h
    · simp at h
    · rename_i m1 hgp
      split at h
      · simp at h
      · rename_i s1 hm1
        split at h
        · simp at h
        · rename_i u hpc
          simp at h
          subst h
          exact ⟨s0, s1, hm0, hgp, hm1, hpc⟩

theorem genParents_nil_inv {fuel : Nat} {m m' : Model} {n : String}
    (h : genParents fuel m n [] = .ok m') : m' = m := by
  unfold genParents at h
  simp only [genParentsF] at h
  injection h with h
  exact h.symm

theorem genParents_cons_inv {fuel : Nat} {m m' : Model} {n p : String}
    {rest : List String}
    (h : genParents fuel m n (p :: rest) = .ok m') :
    ∃ sp m1 par, mget m p = some sp ∧ generate fuel m p = .ok m1 ∧
      mget m1 p = some par ∧
      genParents fuel (mergeParent m1 n par) n rest = .ok m' := by
  unfold genParents at h
  simp only [genParentsF] at h
  split at h
  · simp at h
  · rename_i sp hm0
    split at h
    · simp at h
    · rename_i m1 hg
      split at h
      · simp at h
      · rename_i par hm1
        exact ⟨sp, m1, par, hm0, hg, hm1, h⟩

/-! ### `mergeParent` effect lemmas -/

theorem mget_mergeParent_self {m : Model} {selfN : String} {par : Schema}
    (h : selfN ∉ par.schemata) :
    mget (mergeParent m selfN par) selfN =
      (mget m selfN).map (fun s =>
        { s with properties := mergeProps s.properties par.properties,
                 extendsSet := insert par.name s.extendsSet,
                 schemata := s.schemata ∪ par.schemata,
                 names := s.names ∪ par.schemata }) := by
  unfold mergeParent
  rw [mget_addDesc_not_mem h, mget_mupdate_self]

theorem mget_mergeParent_other {m : Model} {selfN j : String} {par : Schema}
    (hne : j ≠ selfN) :
    mget (mergeParent m selfN par) j =
      (mget m j).map
        (fun s => if j ∈ par.schemata then addDescS s selfN else s) := by
  unfold mergeParent
  by_cases hj : j ∈ par.schemata
  · rw [mget_addDesc_mem hj, mget_mupdate_ne hne]
    cases mget m j <;> simp [hj]
  · rw [mget_addDesc_not_mem hj, mget_mupdate_ne hne]
    cases mget m j <;> simp [hj]

theorem keys_mergeParent {m : Model} {selfN : String} {par : Schema} :
    (mergeParent m selfN par).map Prod.fst = m.map Prod.fst := by
  unfold mergeParent
  rw [keys_addDesc, keys_mupdate]

theorem Frame_mergeParent (m : Model) (selfN : String) (par : Schema)
    (h : selfN ∉ par.schemata) : Frame m (mergeParent m selfN par) := by
  constructor
  · intro k hk
    rw [mget_none_iff] at hk ⊢
    rw [keys_mergeParent]
    exact hk
  · intro k s hk
    by_cases hks : k = selfN
    · subst hks
      rw [mget_mergeParent_self h, hk]
      refine ⟨_, rfl,
        ⟨rfl, rfl, rfl, rfl, rfl, rfl, rfl, rfl, rfl, rfl, rfl, rfl, rfl,
         rfl, rfl, rfl, rfl, rfl, rfl⟩,
        Finset.subset_union_left, Finset.subset_union_left, subset_rfl,
        Finset.subset_insert _ _, fun nm v hv => mergeProps_preserves hv⟩
    · rw [mget_mergeParent_other hks, hk]
      by_cases hjp : k ∈ par.schemata
      · simp only [hjp, if_true, Option.map_some']
        refine ⟨_, rfl,
          ⟨rfl, rfl, rfl, rfl, rfl, rfl, rfl, rfl, rfl, rfl, rfl, rfl, rfl,
           rfl, rfl, rfl, rfl, rfl, rfl⟩,
          subset_rfl, subset_rfl, ?_, subset_rfl, fun nm v hv => hv⟩
        exact Finset.subset_insert _ _
      · simp only [hjp, if_false, Option.map_some']
        exact ⟨s, rfl, sameCore_refl s, subset_rfl, subset_rfl, subset_rfl,
          subset_rfl, fun nm v hv => hv⟩

/-- Preservation of the state invariant by one parent-merge step, given
that the parent has been generated (`par.schemata` is its full closure). -/
theorem Inv_mergeParent {g : String → List String} {rank : String → Nat}
    {Phi : String → List (String × Property)} (hR : RkG g rank) {m : Model}
    (hI : Inv g rank Phi m) {n p : String} {par : Schema}
    (hpn : p ∈ g n) (hpar : mget m p = some par)
    (hsch : par.schemata = CLr g rank p) :
    Inv g rank Phi (mergeParent m n par) := by
  have hnp : n ∉ par.schemata := by
    rw [hsch]
    intro hmem
    have h1 := rank_le_of_mem_CLr hR hmem
    have h2 := hR n p hpn
    omega
  constructor
  · rw [keys_mergeParent]
    exact hI.1
  · intro k s hk
    by_cases hks : k = n
    · subst hks
      rw [mget_mergeParent_self hnp] at hk
      cases hm0 : mget m k with
      | none => rw [hm0] at hk; simp at hk
      | some s0 =>
        rw [hm0] at hk
        simp only [Option.map_some'] at hk
        obtain ⟨hname, hext, hmem, hsub, hnames, hnd, hp0, hvb⟩ :=
          hI.2 k s0 hm0
        injection hk with hk
        subst hk
        refine ⟨hname, hext, Finset.mem_union_left _ hmem, ?_, ?_, ?_, ?_, ?_⟩
        · apply Finset.union_subset hsub
          rw [hsch]
          exact CLr_parent_sub hR hpn
        · rw [hnames]
        · exact mergeProps_keys_nodup hnd
        · exact fun nm v hv => mergeProps_preserves (hp0 nm v hv)
        · intro np0 hnp0
          rcases mergeProps_origin hnp0 with hin | hin
          · exact hvb np0 hin
          · obtain ⟨_, _, _, _, _, _, _, hvbp⟩ := hI.2 p par hpar
            obtain ⟨a, ha, hav⟩ := hvbp np0 hin
            exact ⟨a, CLr_parent_sub hR hpn ha, hav⟩
    · rw [mget_mergeParent_other hks] at hk
      cases hm0 : mget m k with
      | none => rw [hm0] at hk; simp at hk
      | some s0 =>
        rw [hm0] at hk
        simp only [Option.map_some'] at hk
        obtain ⟨hname, hext, hmem, hsub, hnames, hnd, hp0, hvb⟩ :=
          hI.2 k s0 hm0
        by_cases hkp : k ∈ par.schemata
        · rw [if_pos hkp] at hk
          injection hk with hk
          subst hk
          exact ⟨hname, hext, hmem, hsub, hnames, hnd, hp0, hvb⟩
        · rw [if_neg hkp] at hk
          injection hk with hk
          subst hk
          exact ⟨hname, hext, hmem, hsub, hnames, hnd, hp0, hvb⟩

/-! ### Check-passing persistence -/

theorem checkList_ok_iff {s : Schema} {msg : String} {l : List String} :
    checkList s msg l = Except.ok () ↔
      ∀ nm ∈ l, (alookup s.properties nm).isSome = true := by
  induction l with
  | nil => simp [checkList]
  | cons nm rest ih =>
    constructor
    · intro h
      unfold checkList at h
      split at h
      · rename_i v hv
        intro x hx
        rcases List.mem_cons.mp hx with hx | hx
        · subst hx
          rw [show Schema.get s (some x) = alookup s.properties x from rfl]
            at hv
          rw [hv]
          rfl
        · exact ih.mp h x hx
      · simp at h
    · intro h
      have hnm := h nm (List.mem_cons_self _ _)
      obtain ⟨v, hv⟩ := Option.isSome_iff_exists.mp hnm
      unfold checkList
      rw [show Schema.get s (some nm) = alookup s.properties nm from rfl, hv]
      exact ih.mpr (fun x hx => h x (List.mem_cons_of_mem _ hx))

theorem postChecks_ok_iff {s : Schema} :
    postChecks s = Except.ok () ↔
      ((∀ nm ∈ s.featured, (alookup s.properties nm).isSome = true) ∧
       (∀ nm ∈ s.caption, (alookup s.properties nm).isSome = true) ∧
       (∀ nm ∈ s.required, (alookup s.properties nm).isSome = true) ∧
       (s.edge = true →
         (s.sourceProp).isSome = true ∧ (s.targetProp).isSome = true)) := by
  constructor
  · intro h
    unfold postChecks at h
    split at h
    · simp at h
    · rename_i u1 hc1
      split at h
      · simp at h
      · rename_i u2 hc2
        split at h
        · simp at h
        · rename_i u3 hc3
          refine ⟨checkList_ok_iff.mp (by cases u1; exact hc1),
                  checkList_ok_iff.mp (by cases u2; exact hc2),
                  checkList_ok_iff.mp (by cases u3; exact hc3), ?_⟩
          intro hedge
          rw [if_pos hedge] at h
          cases hsp : s.sourceProp with
          | none => rw [hsp] at h; simp at h
          | some v =>
            rw [hsp] at h
            cases htp : s.targetProp with
            | none => rw [htp] at h; simp at h
            | some w => exact ⟨rfl, rfl⟩
  · rintro ⟨h1, h2, h3, h4⟩
    unfold postChecks
    rw [checkList_ok_iff.mpr h1, checkList_ok_iff.mpr h2,
        checkList_ok_iff.mpr h3]
    cases hedge : s.edge with
    | false => simp
    | true =>
      obtain ⟨hsp, htp⟩ := h4 hedge
      obtain ⟨v, hv⟩ := Option.isSome_iff_exists.mp hsp
      obtain ⟨w, hw⟩ := Option.isSome_iff_exists.mp htp
      simp [hv, hw]

theorem postChecks_mono {s t : Schema} (hc : sameCore s t)
    (hp : ∀ nm v, alookup s.properties nm = some v →
      (alookup t.properties nm).isSome = true)
    (h : postChecks s = Except.ok ()) : postChecks t = Except.ok () := by
  obtain ⟨hname, _, _, _, _, _, _, _, hfeat, hreq, hcap, hsrc, htgt, hedge,
    _, _, _, _, _⟩ := hc
  obtain ⟨h1, h2, h3, h4⟩ := postChecks_ok_iff.mp h
  have hmono : ∀ nm, (alookup s.properties nm).isSome = true →
      (alookup t.properties nm).isSome = true := by
    intro nm hnm
    obtain ⟨v, hv⟩ := Option.isSome_iff_exists.mp hnm
    exact hp nm v hv
  apply postChecks_ok_iff.mpr
  refine ⟨?_, ?_, ?_, ?_⟩
  · intro nm hnm
    rw [hfeat] at hnm
    exact hmono nm (h1 nm hnm)
  · intro nm hnm
    rw [hcap] at hnm
    exact hmono nm (h2 nm hnm)
  · intro nm hnm
    rw [hreq] at hnm
    exact hmono nm (h3 nm hnm)
  · intro he
    rw [hedge] at he
    obtain ⟨hds, hdt⟩ := h4 he
    constructor
    · unfold Schema.sourceProp Schema.get at hds ⊢
      rw [hsrc]
      cases hes : s.edge_source with
      | none => rw [hes] at hds; simp at hds
      | some nm =>
        rw [hes] at hds
        exact hmono nm hds
    · unfold Schema.targetProp Schema.get at hdt ⊢
      rw [htgt]
      cases het : s.edge_target with
      | none => rw [het] at hdt; simp at hdt
      | some nm =>
        rw [het] at hdt
        exact hmono nm hdt

/-! ### `GenDone` persistence -/

theorem GenDone_persist {g : String → List String} {rank : String → Nat}
    {Phi : String → List (String × Property)} {m m' : Model}
    (hF : Frame m m') (hI2 : Inv g rank Phi m') {k : String}
    (hG : GenDone g rank Phi m k) : GenDone g rank Phi m' k := by
  obtain ⟨s, hs, hsch, hgp, hdesc, hext, hpc⟩ := hG
  obtain ⟨t, ht, hcore, hsub, hnsub, hdsub, hesub, hprops⟩ := hF.2 k s hs
  refine ⟨t, ht, ?_, ?_, ?_, ?_, ?_⟩
  · apply Finset.Subset.antisymm
    · exact (hI2.2 k t ht).2.2.2.1
    · rw [← hsch]
      exact hsub
  · intro a ha nm v hv
    obtain ⟨w, hw⟩ := Option.isSome_iff_exists.mp (hgp a ha nm v hv)
    rw [hprops nm w hw]
    rfl
  · intro a ha hne
    obtain ⟨sa, hsa, hmem⟩ := hdesc a ha hne
    obtain ⟨ta, hta, _, _, _, hdsa, _, _⟩ := hF.2 a sa hsa
    exact ⟨ta, hta, hdsa hmem⟩
  · intro p hp
    exact hesub (hext p hp)
  · exact postChecks_mono hcore
      (fun nm v hv => by rw [hprops nm v hv]; rfl) hpc

theorem GenDoneCone_persist {g : String → List String} {rank : String → Nat}
    {Phi : String → List (String × Property)} {m m' : Model}
    (hF : Frame m m') (hI2 : Inv g rank Phi m') {k : String}
    (hG : GenDoneCone g rank Phi m k) : GenDoneCone g rank Phi m' k :=
  fun a ha => GenDone_persist hF hI2 (hG a ha)

/-! ### The master soundness lemma for `generate` -/

theorem SelfKeep_refl (s : Schema) : SelfKeep s s := ⟨rfl, rfl, rfl, rfl⟩

theorem SelfKeep_trans {s t u : Schema} (h1 : SelfKeep s t)
    (h2 : SelfKeep t u) : SelfKeep s u :=
  ⟨h2.1.trans h1.1, h2.2.1.trans h1.2.1, h2.2.2.1.trans h1.2.2.1,
   h2.2.2.2.trans h1.2.2.2⟩

theorem not_mem_CLr_of_rank_lt {g : String → List String}
    {rank : String → Nat} (hR : RkG g rank) {p n : String}
    (h : rank p < rank n) : n ∉ CLr g rank p := by
  intro hmem
  have := rank_le_of_mem_CLr hR hmem
  omega

theorem unionCLr_cons {g : String → List String} {rank : String → Nat}
    {p : String} {ps : List String} :
    unionCLr g rank (p :: ps) = CLr g rank p ∪ unionCLr g rank ps := rfl

theorem unionCLr_nil {g : String → List String} {rank : String → Nat} :
    unionCLr g rank [] = ∅ := rfl

/-- The parent loop, assuming soundness of `generate` at the same fuel. -/
theorem genParents_sound_step {g : String → List String}
    {rank : String → Nat} {Phi : String → List (String × Property)}
    (hR : RkG g rank) (fuel : Nat)
    (hgen : ∀ m n m', Inv g rank Phi m → generate (fuel + 1) m n = .ok m' →
      GenOut g rank Phi n m m') :
    ∀ ps m n m', Inv g rank Phi m → (∀ p ∈ ps, p ∈ g n) →
      genParents (fuel + 1) m n ps = .ok m' →
      GPOut g rank Phi n ps m m' := by
  intro ps
  induction ps with
  | nil =>
    intro m n m' hI _ h
    have := genParents_nil_inv h
    subst this
    refine ⟨Frame_refl m', hI, by simp, ?_, ?_⟩
    · intro k sk tk hk htk _ _
      rw [hk] at htk
      injection htk with htk
      subst htk
      exact SelfKeep_refl sk
    · intro s0 hs0
      refine ⟨s0, hs0, by rw [unionCLr_nil, Finset.union_empty],
        by rw [unionCLr_nil, Finset.union_empty], by simp, by simp, by simp⟩
  | cons p rest ihps =>
    intro m n m' hI hg h
    obtain ⟨sp, m1, par, hmp, hgent, hm1p, hrest⟩ := genParents_cons_inv h
    have hpgn : p ∈ g n := hg p (List.mem_cons_self _ _)
    have hrankpn : rank p < rank n := hR n p hpgn
    obtain ⟨hF1, hI1, hconep, hlocp⟩ := hgen m p m1 hI hgent
    -- the parent object after its generation
    have hdonep : GenDone g rank Phi m1 p := hconep p (self_mem_CLr p)
    have hpar_sch : par.schemata = CLr g rank p := by
      obtain ⟨sx, hsx, hx, _, _, _, _⟩ := hdonep
      rw [hm1p] at hsx
      injection hsx with hsx
      rw [hsx]
      exact hx
    have hparname : par.name = p := (hI1.2 p par hm1p).1
    have hnp : n ∉ par.schemata := by
      rw [hpar_sch]
      exact not_mem_CLr_of_rank_lt hR hrankpn
    have hI2 : Inv g rank Phi (mergeParent m1 n par) :=
      Inv_mergeParent hR hI1 hpgn hm1p hpar_sch
    have hF2 : Frame m1 (mergeParent m1 n par) :=
      Frame_mergeParent m1 n par hnp
    obtain ⟨hF3, hI3, hcones, hloc3, hacc3⟩ :=
      ihps (mergeParent m1 n par) n m' hI2
        (fun q hq => hg q (List.mem_cons_of_mem _ hq)) hrest
    have hF23 : Frame m1 m' := Frame_trans hF2 hF3
    have hF : Frame m m' := Frame_trans hF1 hF23
    refine ⟨hF, hI3, ?_, ?_, ?_⟩
    · intro q hq
      rcases List.mem_cons.mp hq with hq | hq
      · subst hq
        exact GenDoneCone_persist hF23 hI3 hconep
      · exact hcones q hq
    · -- locality
      intro k sk tk hk htk hkn hranks
      obtain ⟨s1k, hs1k, _, _, _, _, _, _⟩ := hF1.2 k sk hk
      have hkeep1 : SelfKeep sk s1k :=
        hlocp k sk s1k hk hs1k (hranks p (List.mem_cons_self _ _))
      have hs2k : mget (mergeParent m1 n par) k =
          some (if k ∈ par.schemata then addDescS s1k n else s1k) := by
        rw [mget_mergeParent_other hkn, hs1k]
        rfl
      have hkeep2 : SelfKeep s1k
          (if k ∈ par.schemata then addDescS s1k n else s1k) := by
        by_cases hkp : k ∈ par.schemata
        · rw [if_pos hkp]
          exact ⟨rfl, rfl, rfl, rfl⟩
        · rw [if_neg hkp]
          exact SelfKeep_refl s1k
      have hkeep3 : SelfKeep
          (if k ∈ par.schemata then addDescS s1k n else s1k) tk :=
        hloc3 k _ tk hs2k htk hkn
          (fun q hq => hranks q (List.mem_cons_of_mem _ hq))
      exact SelfKeep_trans (SelfKeep_trans hkeep1 hkeep2) hkeep3
    · -- accumulation at n
      intro s0 hs0
      obtain ⟨s1m, hs1m, _, _, _, _, _, _⟩ := hF1.2 n s0 hs0
      have hkeep1 : SelfKeep s0 s1m := hlocp n s0 s1m hs0 hs1m hrankpn
      have hs2m : mget (mergeParent m1 n par) n =
          some { s1m with
            properties := mergeProps s1m.properties par.properties,
            extendsSet := insert par.name s1m.extendsSet,
            schemata := s1m.schemata ∪ par.schemata,
            names := s1m.names ∪ par.schemata } := by
        rw [mget_mergeParent_self hnp, hs1m]
        rfl
      obtain ⟨s1, hs1, hsch, hnames, hexts, hprops, hdescs⟩ :=
        hacc3 _ hs2m
      refine ⟨s1, hs1, ?_, ?_, ?_, ?_, ?_⟩
      · rw [hsch]
        show (s1m.schemata ∪ par.schemata) ∪ unionCLr g rank rest = _
        rw [hkeep1.1, hpar_sch, unionCLr_cons, Finset.union_assoc]
      · rw [hnames]
        show (s1m.names ∪ par.schemata) ∪ unionCLr g rank rest = _
        rw [hkeep1.2.1, hpar_sch, unionCLr_cons, Finset.union_assoc]
      · intro q hq
        rcases List.mem_cons.mp hq with hq | hq
        · subst hq
          obtain ⟨t2, ht2, _, _, _, _, hesub, _⟩ := hF3.2 n _ hs2m
          rw [ht2] at hs1
          injection hs1 with he
          rw [← he]
          apply hesub
          show q ∈ insert par.name s1m.extendsSet
          rw [hparname]
          exact Finset.mem_insert_self _ _
        · exact hexts q hq
      · intro q hq a ha nm v hv
        rcases List.mem_cons.mp hq with hq | hq
        · subst hq
          -- binding present in par's properties, hence in the merge
          obtain ⟨sx, hsx, _, hgpx, _, _, _⟩ := hdonep
          rw [hm1p] at hsx
          injection hsx with hsx
          subst hsx
          have hbind := hgpx a ha nm v hv
          obtain ⟨w, hw⟩ := Option.isSome_iff_exists.mp hbind
          have hmerged : (alookup (mergeProps s1m.properties
              par.properties) nm).isSome = true :=
            mergeProps_parent_present hw
          obtain ⟨w2, hw2⟩ := Option.isSome_iff_exists.mp hmerged
          -- persists from m2 to m'
          obtain ⟨t2, ht2, _, _, _, _, _, hpers⟩ := hF3.2 n _ hs2m
          rw [ht2] at hs1
          injection hs1 with hs1
          subst hs1
          rw [hpers nm w2 hw2]
          rfl
        · exact hprops q hq a ha nm v hv
      · intro q hq a ha
        rcases List.mem_cons.mp hq with hq | hq
        · subst hq
          -- n was registered in a's descendants by the merge step
          have hane : a ≠ n := by
            intro hEq
            subst hEq
            exact absurd ha (not_mem_CLr_of_rank_lt hR hrankpn)
          obtain ⟨sa0, hsa0, _, _, _, _, _⟩ := hconep a ha
          have hsa2 : mget (mergeParent m1 n par) a =
              some (addDescS sa0 n) := by
            rw [mget_mergeParent_other hane, hsa0]
            rw [hpar_sch]
            simp [ha]
          obtain ⟨ta, hta, _, _, _, hdsub, _, _⟩ := hF3.2 a _ hsa2
          refine ⟨ta, hta, hdsub ?_⟩
          unfold addDescS
          simp
        · exact hdescs q hq a ha

theorem GPOut_nil {g : String → List String} {rank : String → Nat}
    {Phi : String → List (String × Property)} {n : String} {m : Model}
    (hI : Inv g rank Phi m) : GPOut g rank Phi n [] m m := by
  refine ⟨Frame_refl m, hI, by simp, ?_, ?_⟩
  · intro k sk tk hk htk _ _
    rw [hk] at htk
    injection htk with htk
    subst htk
    exact SelfKeep_refl sk
  · intro s0 hs0
    refine ⟨s0, hs0, by rw [unionCLr_nil, Finset.union_empty],
      by rw [unionCLr_nil, Finset.union_empty], by simp, by simp, by simp⟩

/-- Master soundness of `Schema.generate`: under the invariant, a successful
run preserves the frame and the invariant, fully generates the whole
ancestor cone of its argument, and leaves the self-fields of higher-ranked
schemas untouched (similarly for the parent loop). -/
theorem generate_sound {g : String → List String} {rank : String → Nat}
    {Phi : String → List (String × Property)} (hR : RkG g rank) :
    ∀ fuel : Nat,
      (∀ m n m', Inv g rank Phi m → generate fuel m n = .ok m' →
        GenOut g rank Phi n m m') ∧
      (∀ ps m n m', Inv g rank Phi m → (∀ p ∈ ps, p ∈ g n) →
        genParents fuel m n ps = .ok m' →
        GPOut g rank Phi n ps m m') := by
  intro fuel
  induction fuel with
  | zero =>
    constructor
    · intro m n m' _ h
      rw [generate_zero] at h
      simp at h
    · intro ps m n m' hI hg h
      cases ps with
      | nil =>
        have := genParents_nil_inv h
        subst this
        exact GPOut_nil hI
      | cons p rest =>
        obtain ⟨sp, m1, par, _, hgent, _, _⟩ := genParents_cons_inv h
        rw [generate_zero] at hgent
        simp at hgent
  | succ fuel ih =>
    have hgen : ∀ m n m', Inv g rank Phi m →
        generate (fuel + 1) m n = .ok m' → GenOut g rank Phi n m m' := by
      intro m n m' hI h
      obtain ⟨s0, s1, hm0, hgp, hm1, hpc⟩ := generate_succ_inv h
      have hext : s0.extNames = g n := (hI.2 n s0 hm0).2.1
      have hps : ∀ p ∈ s0.extNames, p ∈ g n := fun p hp => hext ▸ hp
      obtain ⟨hF, hI1, hcones, hloc, hacc⟩ :=
        ih.2 s0.extNames m n m' hI hps hgp
      obtain ⟨t1, ht1, hscheq, hnameq, hexts, hgpprops, hdescs⟩ := hacc s0 hm0
      have ht1s1 : s1 = t1 := by
        have h2 := ht1.symm.trans hm1
        exact (Option.some.inj h2).symm
      subst ht1s1
      obtain ⟨hname1, hext1, hmem1, hsub1, hnames1, hnd1, hp01, hvb1⟩ :=
        hI1.2 n s1 hm1
      have hmem0 : n ∈ s0.schemata := (hI.2 n s0 hm0).2.2.1
      have hCL : s1.schemata = CLr g rank n := by
        apply Finset.Subset.antisymm hsub1
        rw [CLr_fixed hR n]
        intro a ha
        rcases Finset.mem_insert.mp ha with ha | ha
        · subst ha
          rw [hscheq]
          exact Finset.mem_union_left _ hmem0
        · rw [hscheq]
          apply Finset.mem_union_right
          rw [hext]
          exact ha
      have hdone : GenDone g rank Phi m' n := by
        refine ⟨s1, hm1, hCL, ?_, ?_, ?_, hpc⟩
        · intro a ha nm v hv
          rw [CLr_fixed hR n] at ha
          rcases Finset.mem_insert.mp ha with ha | ha
          · subst ha
            rw [hp01 nm v hv]
            rfl
          · obtain ⟨p, hp, hap⟩ := mem_unionCLr.mp ha
            exact hgpprops p (by rw [hext]; exact hp) a hap nm v hv
        · intro a ha hane
          rw [CLr_fixed hR n] at ha
          rcases Finset.mem_insert.mp ha with ha | ha
          · exact absurd ha hane
          · obtain ⟨p, hp, hap⟩ := mem_unionCLr.mp ha
            exact hdescs p (by rw [hext]; exact hp) a hap
        · intro p hp
          exact hexts p (by rw [hext]; exact hp)
      have hcone : GenDoneCone g rank Phi m' n := by
        intro a ha
        rw [CLr_fixed hR n] at ha
        rcases Finset.mem_insert.mp ha with ha | ha
        · subst ha
          exact hdone
        · obtain ⟨p, hp, hap⟩ := mem_unionCLr.mp ha
          exact hcones p (by rw [hext]; exact hp) a hap
      refine ⟨hF, hI1, hcone, ?_⟩
      intro k sk tk hk htk hrk
      apply hloc k sk tk hk htk
      · intro hEq
        rw [hEq] at hrk
        omega
      · intro p hp
        have := hR n p (hps p hp)
        omega
    exact ⟨hgen, genParents_sound_step hR fuel hgen⟩

/-! ### Constructor-direction lemmas and idempotence -/

theorem generate_succ_intro {fuel : Nat} {m m' : Model} {n : String}
    {s0 s1 : Schema}
    (hm0 : mget m n = some s0)
    (hgp : genParents fuel m n s0.extNames = .ok m')
    (hm1 : mget m' n = some s1)
    (hpc : postChecks s1 = Except.ok ()) :
    generate (fuel + 1) m n = .ok m' := by
  unfold generate
  simp only [hm0, genParentsF_eq, hgp, hm1, hpc]

theorem genParents_cons_intro {fuel : Nat} {m m1 m' : Model} {n p : String}
    {rest : List String} {sp par : Schema}
    (hm0 : mget m p = some sp)
    (hg : generate fuel m p = .ok m1)
    (hm1 : mget m1 p = some par)
    (hrest : genParents fuel (mergeParent m1 n par) n rest = .ok m') :
    genParents fuel m n (p :: rest) = .ok m' := by
  unfold genParents
  simp only [genParentsF, hm0, hg, hm1]
  exact hrest

theorem genParents_nil_intro {fuel : Nat} {m : Model} {n : String} :
    genParents fuel m n [] = .ok m := by
  unfold genParents
  rfl

theorem mergeProps_id {own inh : List (String × Property)}
    (h : ∀ np ∈ inh, (alookup own np.1).isSome = true) :
    mergeProps own inh = own := by
  induction inh with
  | nil => rfl
  | cons q rest ih =>
    rw [mergeProps_cons]
    simp only [h q (List.mem_cons_self _ _), if_true]
    exact ih (fun np hnp => h np (List.mem_cons_of_mem _ hnp))

theorem addDescS_id {s : Schema} {c : String} (h : c ∈ s.descendants) :
    addDescS s c = s := by
  unfold addDescS
  rw [Finset.insert_eq_self.mpr h]

theorem mupdate_id {m : Model} {k : String} {F : Schema → Schema}
    (h : ∀ e ∈ m, e.1 = k → F e.2 = e.2) : mupdate m k F = m := by
  unfold mupdate
  induction m with
  | nil => rfl
  | cons e rest ih =>
    simp only [List.map_cons]
    congr 1
    · by_cases he : e.1 = k
      · rw [if_pos he, h e (List.mem_cons_self _ _) he]
      · rw [if_neg he]
    · exact ih (fun x hx hxk => h x (List.mem_cons_of_mem _ hx) hxk)

theorem addDesc_id {m : Model} {A : Finset String} {c : String}
    (h : ∀ e ∈ m, e.1 ∈ A → addDescS e.2 c = e.2) : addDesc m A c = m := by
  unfold addDesc
  induction m with
  | nil => rfl
  | cons e rest ih =>
    simp only [List.map_cons]
    congr 1
    · by_cases he : e.1 ∈ A
      · rw [if_pos he, h e (List.mem_cons_self _ _) he]
      · rw [if_neg he]
    · exact ih (fun x hx hxk => h x (List.mem_cons_of_mem _ hx) hxk)

/-- Re-merging an already-generated parent into an already-generated child
changes nothing: every re-added property name is already present, the parent
is already in `extends`, its `schemata` are already subsumed, and the child
is already registered in each ancestor's `descendants`. -/
theorem mergeParent_id {g : String → List String} {rank : String → Nat}
    {Phi : String → List (String × Property)} (hR : RkG g rank) {m : Model}
    (hI : Inv g rank Phi m) {n p : String} {s par : Schema}
    (hpgn : p ∈ g n) (hs : mget m n = some s) (hpar : mget m p = some par)
    (hdn : GenDone g rank Phi m n) (hdp : GenDone g rank Phi m p) :
    mergeParent m n par = m := by
  obtain ⟨s', hs', hschn, hgpn, hdescn, hextn, _⟩ := hdn
  have hseq : s = s' := Option.some.inj (hs.symm.trans hs')
  subst hseq
  obtain ⟨par', hpar', hschp, _, _, _, _⟩ := hdp
  have hpeq : par = par' := Option.some.inj (hpar.symm.trans hpar')
  subst hpeq
  have hparname : par.name = p := (hI.2 p par hpar).1
  have hrankpn : rank p < rank n := hR n p hpgn
  have hFid : ∀ e ∈ m, e.1 = n → ({ e.2 with
      properties := mergeProps e.2.properties par.properties,
      extendsSet := insert par.name e.2.extendsSet,
      schemata := e.2.schemata ∪ par.schemata,
      names := e.2.names ∪ par.schemata }) = e.2 := by
    intro e he hek
    have hme : mget m e.1 = some e.2 :=
      alookup_of_mem_nodup hI.1 (by rw [Prod.mk.eta]; exact he)
    rw [hek, hs] at hme
    have he2 : e.2 = s := Option.some.inj hme.symm
    have h1 : mergeProps s.properties par.properties = s.properties := by
      apply mergeProps_id
      intro np hnp
      obtain ⟨_, _, _, _, _, _, _, hvbp⟩ := hI.2 p par hpar
      obtain ⟨a, ha, hav⟩ := hvbp np hnp
      exact hgpn a (CLr_parent_sub hR hpgn ha) np.1 np.2 hav
    have h2 : insert par.name s.extendsSet = s.extendsSet :=
      Finset.insert_eq_self.mpr (by rw [hparname]; exact hextn p hpgn)
    have h3 : s.schemata ∪ par.schemata = s.schemata :=
      Finset.union_eq_left.mpr
        (by rw [hschp, hschn]; exact CLr_parent_sub hR hpgn)
    have h4 : s.names ∪ par.schemata = s.names := by
      have hnames : s.names = s.schemata := (hI.2 n s hs).2.2.2.2.1
      rw [hnames]
      exact h3
    rw [he2, h1, h2, h3, h4]
  unfold mergeParent
  rw [mupdate_id hFid]
  apply addDesc_id
  intro e he hea
  apply addDescS_id
  have hme : mget m e.1 = some e.2 :=
    alookup_of_mem_nodup hI.1 (by rw [Prod.mk.eta]; exact he)
  have ha : e.1 ∈ CLr g rank p := by rw [← hschp]; exact hea
  have hane : e.1 ≠ n := fun hEq =>
    absurd (hEq ▸ ha) (not_mem_CLr_of_rank_lt hR hrankpn)
  obtain ⟨sa, hsa, hmem⟩ := hdescn e.1 (CLr_parent_sub hR hpgn ha) hane
  have hsae : sa = e.2 := Option.some.inj (hsa.symm.trans hme)
  rw [hsae] at hmem
  exact hmem

/-- Idempotence of `generate`: re-running it on a schema whose whole
ancestor cone is already generated returns without changing the model at
all. -/
theorem generate_idem {g : String → List String} {rank : String → Nat}
    {Phi : String → List (String × Property)} (hR : RkG g rank) :
    ∀ fuel n m, Inv g rank Phi m → GenDoneCone g rank Phi m n →
      rank n < fuel → generate fuel m n = .ok m := by
  intro fuel
  induction fuel with
  | zero =>
    intro n m _ _ h
    omega
  | succ fuel ih =>
    intro n m hI hcone hrank
    obtain ⟨s, hs, hsch, hgps, hdesc, hext, hpc⟩ := hcone n (self_mem_CLr n)
    have hextg : s.extNames = g n := (hI.2 n s hs).2.1
    have hloop : ∀ ps, (∀ p ∈ ps, p ∈ g n) →
        genParents fuel m n ps = .ok m := by
      intro ps
      induction ps with
      | nil => intro _; exact genParents_nil_intro
      | cons p rest ihp =>
        intro hg
        have hpgn : p ∈ g n := hg p (List.mem_cons_self _ _)
        have hpcl : p ∈ CLr g rank n := mem_CLr_of_parent hR hpgn
        obtain ⟨par, hpar, _, _, _, _, _⟩ := hcone p hpcl
        have hgenp : generate fuel m p = .ok m := by
          apply ih p m hI
          · intro a ha
            exact hcone a (CLr_trans hR hpcl ha)
          · have := hR n p hpgn
            omega
        have hmerge : mergeParent m n par = m :=
          mergeParent_id hR hI hpgn hs hpar (hcone n (self_mem_CLr n))
            (hcone p hpcl)
        exact genParents_cons_intro hpar hgenp hpar
          (by rw [hmerge]
              exact ihp (fun q hq => hg q (List.mem_cons_of_mem _ hq)))
    exact generate_succ_intro hs
      (by rw [hextg]; exact hloop (g n) (fun p hp => hp)) hs hpc

/-! ### Soundness of the whole load (`generateAll`) -/

theorem generateAll_sound {g : String → List String} {rank : String → Nat}
    {Phi : String → List (String × Property)} (hR : RkG g rank)
    (fuel : Nat) :
    ∀ ns m m', Inv g rank Phi m → generateAll fuel m ns = .ok m' →
      Frame m m' ∧ Inv g rank Phi m' ∧
      ∀ n ∈ ns, GenDoneCone g rank Phi m' n := by
  intro ns
  induction ns with
  | nil =>
    intro m m' hI h
    have hmm : m' = m := by
      unfold generateAll at h
      simp at h
      exact h.symm
    subst hmm
    exact ⟨Frame_refl m', hI, by simp⟩
  | cons n rest ihn =>
    intro m m' hI h
    unfold generateAll at h
    split at h
    · simp at h
    · rename_i m1 hg
      obtain ⟨hF1, hI1, hcone1, _⟩ := (generate_sound hR fuel).1 m n m1 hI hg
      obtain ⟨hF2, hI2, hall⟩ := ihn m1 m' hI1 h
      refine ⟨Frame_trans hF1 hF2, hI2, ?_⟩
      intro k hk
      rcases List.mem_cons.mp hk with hk | hk
      · subst hk
        exact GenDoneCone_persist hF2 hI2 hcone1
      · exact hall k hk

/-! ### The constructed initial model satisfies the invariant -/

theorem mget_initModel {specs : List (String × SchemaSpec)} {k : String} :
    mget (initModel specs) k =
      (alookup specs k).map (fun d => schemaInit k d) := by
  induction specs with
  | nil => rfl
  | cons e rest ih =>
    by_cases he : e.1 = k
    · simp [initModel, mget, alookup, he]
    · simp only [initModel, mget, alookup, List.map_cons, he, if_neg he,
        if_false] at ih ⊢
      exact ih

theorem initModel_Inv (specs : List (String × SchemaSpec))
    (rank : String → Nat)
    (hkeys : (specs.map Prod.fst).Nodup)
    (hnd : ∀ e ∈ specs, ((e.2).properties.map Prod.fst).Nodup) :
    Inv (extG specs) rank (propPhi specs) (initModel specs) := by
  constructor
  · have hkm : (initModel specs).map Prod.fst = specs.map Prod.fst := by
      unfold initModel
      rw [List.map_map]
      rfl
    rw [hkm]
    exact hkeys
  · intro k s hk
    rw [mget_initModel] at hk
    cases hd : alookup specs k with
    | none => rw [hd] at hk; simp at hk
    | some d =>
      rw [hd] at hk
      simp only [Option.map_some'] at hk
      injection hk with hk
      have hmemd : (k, d) ∈ specs := alookup_mem hd
      have hpnd : ((schemaInit k d).properties.map Prod.fst).Nodup := by
        show ((d.properties.map
          (fun e => (e.1, propertyInit k e.1 e.2))).map Prod.fst).Nodup
        rw [List.map_map]
        exact hnd (k, d) hmemd
      subst hk
      refine ⟨rfl, ?_, ?_, ?_, rfl, hpnd, ?_, ?_⟩
      · unfold extG
        rw [mget_initModel, hd]
        rfl
      · exact Finset.mem_singleton_self k
      · intro a ha
        have haa : a = k := Finset.mem_singleton.mp ha
        rw [haa]
        exact self_mem_CLr k
      · intro nm v hv
        unfold propPhi at hv
        rw [mget_initModel, hd] at hv
        exact hv
      · intro np hnp
        refine ⟨k, self_mem_CLr k, ?_⟩
        unfold propPhi
        rw [mget_initModel, hd]
        exact alookup_of_mem_nodup hpnd hnp

/-! ### Completeness of `generate` under the configuration conditions -/

theorem Frame_back_exists {m m' : Model} (hF : Frame m m') {k : String}
    {t : Schema} (h : mget m' k = some t) : ∃ s, mget m k = some s := by
  cases hm : mget m k with
  | none => rw [hF.1 k hm] at h; simp at h
  | some s => exact ⟨s, rfl⟩

theorem condOK_stable {g : String → List String} {rank : String → Nat}
    {Phi : String → List (String × Property)} {m m' : Model}
    (hF : Frame m m') {k : String} (h : condOK g rank Phi m k) :
    condOK g rank Phi m' k := by
  obtain ⟨s, hs, hpres, hf, hc, hr, he⟩ := h
  obtain ⟨t, ht, hcore, _, _, _, _, _⟩ := hF.2 k s hs
  obtain ⟨_, _, _, _, _, _, _, _, hfeat, hreq, hcap, hsrc, htgt, hedge, _,
    _, _, _, _⟩ := hcore
  refine ⟨t, ht, ?_, ?_, ?_, ?_, ?_⟩
  · intro p hp
    obtain ⟨sp, hsp⟩ := Option.isSome_iff_exists.mp (hpres p hp)
    obtain ⟨tp, htp, _⟩ := hF.2 p sp hsp
    rw [htp]
    rfl
  · intro nm hnm
    rw [hfeat] at hnm
    exact hf nm hnm
  · intro nm hnm
    rw [hcap] at hnm
    exact hc nm hnm
  · intro nm hnm
    rw [hreq] at hnm
    exact hr nm hnm
  · intro hedget
    rw [hedge] at hedget
    obtain ⟨⟨src, hsrc2, hms⟩, ⟨tgt, htgt2, hmt⟩⟩ := he hedget
    exact ⟨⟨src, hsrc.trans hsrc2, hms⟩, ⟨tgt, htgt.trans htgt2, hmt⟩⟩

theorem generate_complete {g : String → List String} {rank : String → Nat}
    {Phi : String → List (String × Property)} (hR : RkG g rank) :
    ∀ fuel n m, Inv g rank Phi m →
      (∀ a ∈ CLr g rank n, condOK g rank Phi m a) →
      rank n < fuel → ∃ m', generate fuel m n = .ok m' := by
  intro fuel
  induction fuel with
  | zero =>
    intro n m _ _ h
    omega
  | succ fuel ih =>
    intro n m hI hcond hrank
    obtain ⟨s, hs, hpres, hf, hc, hr, hedge⟩ := hcond n (self_mem_CLr n)
    have hextg : s.extNames = g n := (hI.2 n s hs).2.1
    have hloop : ∀ ps, (∀ p ∈ ps, p ∈ g n) → ∀ m2, Inv g rank Phi m2 →
        (∀ a ∈ CLr g rank n, condOK g rank Phi m2 a) →
        ∃ m3, genParents fuel m2 n ps = .ok m3 := by
      intro ps
      induction ps with
      | nil => exact fun _ m2 _ _ => ⟨m2, genParents_nil_intro⟩
      | cons p rest ihp =>
        intro hg m2 hI2 hcond2
        have hpgn : p ∈ g n := hg p (List.mem_cons_self _ _)
        have hpcl : p ∈ CLr g rank n := mem_CLr_of_parent hR hpgn
        obtain ⟨s2, hs2, hpres2, _, _, _, _⟩ := hcond2 n (self_mem_CLr n)
        obtain ⟨sp, hsp⟩ := Option.isSome_iff_exists.mp (hpres2 p hpgn)
        obtain ⟨m3, hgenp⟩ := ih p m2 hI2
          (fun a ha => hcond2 a (CLr_trans hR hpcl ha))
          (by have := hR n p hpgn; omega)
        obtain ⟨hF3, hI3, hcone3, _⟩ :=
          (generate_sound hR fuel).1 m2 p m3 hI2 hgenp
        obtain ⟨par, hparm3, hparsch, _, _, _, _⟩ :=
          hcone3 p (self_mem_CLr p)
        have hnp : n ∉ par.schemata := by
          rw [hparsch]
          exact not_mem_CLr_of_rank_lt hR (hR n p hpgn)
        have hI4 : Inv g rank Phi (mergeParent m3 n par) :=
          Inv_mergeParent hR hI3 hpgn hparm3 hparsch
        have hF4 : Frame m2 (mergeParent m3 n par) :=
          Frame_trans hF3 (Frame_mergeParent m3 n par hnp)
        obtain ⟨m5, h5⟩ := ihp (fun q hq => hg q (List.mem_cons_of_mem _ hq))
          (mergeParent m3 n par) hI4
          (fun a ha => condOK_stable hF4 (hcond2 a ha))
        exact ⟨m5, genParents_cons_intro hsp hgenp hparm3 h5⟩
    obtain ⟨m1, hgp1⟩ := hloop (g n) (fun p hp => hp) m hI hcond
    obtain ⟨hF1, hI1, hcones1, _, hacc1⟩ :=
      (generate_sound hR fuel).2 (g n) m n m1 hI (fun p hp => hp) hgp1
    obtain ⟨s1, hs1, _, _, _, hgpprops, _⟩ := hacc1 s hs
    obtain ⟨t1, ht1, hcore1, _, _, _, _, _⟩ := hF1.2 n s hs
    have ht1s1 : s1 = t1 := Option.some.inj (hs1.symm.trans ht1)
    subst ht1s1
    obtain ⟨_, _, _, _, _, _, _, _, hfeat1, hreq1, hcap1, hsrc1, htgt1,
      hedge1, _, _, _, _, _⟩ := hcore1
    have hmergedLookup : ∀ nm, mergedHas g rank Phi n nm →
        (alookup s1.properties nm).isSome = true := by
      intro nm hmh
      obtain ⟨a, ha, hbind⟩ := hmh
      obtain ⟨v, hv⟩ := Option.isSome_iff_exists.mp hbind
      rw [CLr_fixed hR n] at ha
      rcases Finset.mem_insert.mp ha with ha | ha
      · rw [ha] at hv
        rw [(hI1.2 n s1 hs1).2.2.2.2.2.2.1 nm v hv]
        rfl
      · obtain ⟨p, hp, hap⟩ := mem_unionCLr.mp ha
        exact hgpprops p hp a hap nm v hv
    have hpc : postChecks s1 = Except.ok () := by
      apply postChecks_ok_iff.mpr
      refine ⟨?_, ?_, ?_, ?_⟩
      · intro nm hnm
        rw [hfeat1] at hnm
        exact hmergedLookup nm (hf nm hnm)
      · intro nm hnm
        rw [hcap1] at hnm
        exact hmergedLookup nm (hc nm hnm)
      · intro nm hnm
        rw [hreq1] at hnm
        exact hmergedLookup nm (hr nm hnm)
      · intro hedget
        rw [hedge1] at hedget
        obtain ⟨⟨src, hsrc2, hms⟩, ⟨tgt, htgt2, hmt⟩⟩ := hedge hedget
        constructor
        · unfold Schema.sourceProp Schema.get
          rw [hsrc1, hsrc2]
          exact hmergedLookup src hms
        · unfold Schema.targetProp Schema.get
          rw [htgt1, htgt2]
          exact hmergedLookup tgt hmt
    exact ⟨m1, generate_succ_intro hs (by rw [hextg]; exact hgp1) hs1 hpc⟩

theorem generate_necessary {g : String → List String} {rank : String → Nat}
    {Phi : String → List (String × Property)} (hR : RkG g rank)
    {fuel : Nat} {m m' : Model} {n : String}
    (hI : Inv g rank Phi m) (h : generate fuel m n = .ok m') :
    ∀ a ∈ CLr g rank n, condOK g rank Phi m a := by
  obtain ⟨hF, hI1, hcone, _⟩ := (generate_sound hR fuel).1 m n m' hI h
  intro a ha
  obtain ⟨sa', hsa', hsch', hgp', hdesc', hext', hpc'⟩ := hcone a ha
  obtain ⟨sa0, hsa0⟩ := Frame_back_exists hF hsa'
  obtain ⟨t, ht, hcore, _, _, _, _, _⟩ := hF.2 a sa0 hsa0
  have hts : sa' = t := Option.some.inj (hsa'.symm.trans ht)
  subst hts
  obtain ⟨_, _, _, _, _, _, _, _, hfeat, hreq, hcap, hsrc, htgt, hedge, _,
    _, _, _, _⟩ := hcore
  have hvb := (hI1.2 a sa' hsa').2.2.2.2.2.2.2
  have hchecks := postChecks_ok_iff.mp hpc'
  have hbound : ∀ nm, (alookup sa'.properties nm).isSome = true →
      mergedHas g rank Phi a nm := by
    intro nm hnm
    obtain ⟨v, hv⟩ := Option.isSome_iff_exists.mp hnm
    obtain ⟨b, hb, hbind⟩ := hvb (nm, v) (alookup_mem hv)
    exact ⟨b, hb, by rw [hbind]; rfl⟩
  refine ⟨sa0, hsa0, ?_, ?_, ?_, ?_, ?_⟩
  · intro p hp
    have hpCL : p ∈ CLr g rank a := mem_CLr_of_parent hR hp
    have hpCLn : p ∈ CLr g rank n := CLr_trans hR ha hpCL
    obtain ⟨sp', hsp', _, _, _, _, _⟩ := hcone p hpCLn
    obtain ⟨sp0, hsp0⟩ := Frame_back_exists hF hsp'
    rw [hsp0]
    rfl
  · intro nm hnm
    exact hbound nm (hchecks.1 nm (by rw [hfeat]; exact hnm))
  · intro nm hnm
    exact hbound nm (hchecks.2.1 nm (by rw [hcap]; exact hnm))
  · intro nm hnm
    exact hbound nm (hchecks.2.2.1 nm (by rw [hreq]; exact hnm))
  · intro he0
    obtain ⟨hds, hdt⟩ := hchecks.2.2.2 (by rw [hedge]; exact he0)
    constructor
    · cases hes : sa'.edge_source with
      | none =>
        unfold Schema.sourceProp Schema.get at hds
        rw [hes] at hds
        simp at hds
      | some src =>
        refine ⟨src, ?_, ?_⟩
        · rw [← hes]
          exact hsrc.symm
        · unfold Schema.sourceProp Schema.get at hds
          rw [hes] at hds
          exact hbound src hds
    · cases het : sa'.edge_target with
      | none =>
        unfold Schema.targetProp Schema.get at hdt
        rw [het] at hdt
        simp at hdt
      | some tgt =>
        refine ⟨tgt, ?_, ?_⟩
        · rw [← het]
          exact htgt.symm
        · unfold Schema.targetProp Schema.get at hdt
          rw [het] at hdt
          exact hbound tgt hdt

/-! ### Acyclicity witnesses for the concrete scenarios -/

theorem wRkG : RkG (extG wSpecs) wRank := by
  intro k p hp
  unfold extG at hp
  by_cases h1 : k = "Thing"
  · subst h1
    have hx : extG wSpecs "Thing" = [] := by decide
    unfold extG at hx
    rw [hx] at hp
    simp at hp
  · by_cases h2 : k = "LegalEntity"
    · subst h2
      have hx : extG wSpecs "LegalEntity" = ["Thing"] := by decide
      unfold extG at hx
      rw [hx] at hp
      simp at hp
      subst hp
      decide
    · by_cases h3 : k = "Company"
      · subst h3
        have hx : extG wSpecs "Company" = ["LegalEntity"] := by decide
        unfold extG at hx
        rw [hx] at hp
        simp at hp
        subst hp
        decide
      · have hy : mget (initModel wSpecs) k = none := by
          rw [mget_initModel]
          have ha : alookup wSpecs k = none := by
            unfold wSpecs alookup
            rw [if_neg (fun hh => h1 hh.symm)]
            unfold alookup
            rw [if_neg (fun hh => h2 hh.symm)]
            unfold alookup
            rw [if_neg (fun hh => h3 hh.symm)]
            rfl
          rw [ha]
          rfl
        rw [hy] at hp
        simp at hp

theorem wRkGC : RkG (extG wSpecsC) wRankC := by
  intro k p hp
  unfold extG at hp
  by_cases h1 : k = "R1"
  · subst h1
    have hx : extG wSpecsC "R1" = [] := by decide
    unfold extG at hx
    rw [hx] at hp
    simp at hp
  · by_cases h2 : k = "R2"
    · subst h2
      have hx : extG wSpecsC "R2" = [] := by decide
      unfold extG at hx
      rw [hx] at hp
      simp at hp
    · by_cases h3 : k = "C"
      · subst h3
        have hx : extG wSpecsC "C" = ["R1", "R2"] := by decide
        unfold extG at hx
        rw [hx] at hp
        simp at hp
        rcases hp with hp | hp <;> subst hp <;> decide
      · have hy : mget (initModel wSpecsC) k = none := by
          rw [mget_initModel]
          have ha : alookup wSpecsC k = none := by
            unfold wSpecsC alookup
            rw [if_neg (fun hh => h1 hh.symm)]
            unfold alookup
            rw [if_neg (fun hh => h2 hh.symm)]
            unfold alookup
            rw [if_neg (fun hh => h3 hh.symm)]
            rfl
          rw [ha]
          rfl
        rw [hy] at hp
        simp at hp

/-! ### Claim theorems: hierarchy resolution -/

/-- **C1**: in an acyclic extends-graph (witnessed by `rank`), after
`generate()` has completed for every schema of the constructed model, each
schema's `schemata` equals `{self} ∪ ⋃ parent.schemata` over its direct
parents (the fixed point), `names` coincides with `schemata` (name-identity
of schema sets), and the schema appears in the `descendants` of every
member of its `schemata` other than itself. -/
theorem C1_closure_fixed_point (specs : List (String × SchemaSpec))
    (rank : String → Nat) (fuel : Nat) (ns : List String) (m' : Model)
    (hkeys : (specs.map Prod.fst).Nodup)
    (hnd : ∀ e ∈ specs, ((e.2).properties.map Prod.fst).Nodup)
    (hR : RkG (extG specs) rank)
    (hgen : generateAll fuel (initModel specs) ns = .ok m')
    (hcov : ∀ e ∈ initModel specs, e.1 ∈ ns) :
    ∀ n s, mget m' n = some s →
      s.schemata = insert n (parentsUnionF m' s) ∧
      s.names = s.schemata ∧
      (∀ a ∈ s.schemata, a ≠ n →
        ∃ sa, mget m' a = some sa ∧ n ∈ sa.descendants) := by
  have hI0 := initModel_Inv specs rank hkeys hnd
  obtain ⟨hF, hI, hall⟩ := generateAll_sound hR fuel ns _ m' hI0 hgen
  intro n s hsn
  have hnin : n ∈ ns := by
    cases h0 : mget (initModel specs) n with
    | none => rw [hF.1 n h0] at hsn; simp at hsn
    | some s0 => exact hcov (n, s0) (alookup_mem h0)
  have hcone := hall n hnin
  obtain ⟨s2, hs2, hsch, _, hdesc, _, _⟩ := hcone n (self_mem_CLr n)
  have hseq : s = s2 := Option.some.inj (hsn.symm.trans hs2)
  subst hseq
  refine ⟨?_, (hI.2 n s hsn).2.2.2.2.1, ?_⟩
  · rw [hsch, CLr_fixed hR n]
    congr 1
    unfold parentsUnionF unionCLr
    rw [(hI.2 n s hsn).2.1]
    apply unionF_congr
    intro p hp
    obtain ⟨sp, hsp, hspsch, _, _, _, _⟩ := hcone p (mem_CLr_of_parent hR hp)
    rw [hsp]
    exact hspsch.symm
  · intro a ha hane
    rw [hsch] at ha
    exact hdesc a ha hane

/-- Witness for C1 at the spec §8 scenario. -/
theorem C1_witness :
    generateAll 5 (initModel wSpecs) wNames = Except.ok wGenRes ∧
    ∀ n s, mget wGenRes n = some s →
      s.schemata = insert n (parentsUnionF wGenRes s) ∧
      s.names = s.schemata ∧
      (∀ a ∈ s.schemata, a ≠ n →
        ∃ sa, mget wGenRes a = some sa ∧ n ∈ sa.descendants) := by
  have h1 : generateAll 5 (initModel wSpecs) wNames = Except.ok wGenRes :=
    rfl
  exact ⟨h1, C1_closure_fixed_point wSpecs wRank 5 wNames wGenRes
    (by decide) (by decide) wRkG h1 (by decide)⟩

/-- **C2**: calling `generate()` again on any schema of the fully generated
model is a complete no-op: it succeeds and returns the model unchanged, so
in particular that schema's `properties`, `schemata` and `descendants` (and
every other field of every schema) are left exactly as they were — diamond
re-traversals included, since the run re-merges every parent. -/
theorem C2_generate_idempotent (specs : List (String × SchemaSpec))
    (rank : String → Nat) (fuel : Nat) (ns : List String) (m' : Model)
    (hkeys : (specs.map Prod.fst).Nodup)
    (hnd : ∀ e ∈ specs, ((e.2).properties.map Prod.fst).Nodup)
    (hR : RkG (extG specs) rank)
    (hgen : generateAll fuel (initModel specs) ns = .ok m')
    (hcov : ∀ e ∈ initModel specs, e.1 ∈ ns) :
    ∀ n s, mget m' n = some s → ∀ fuel2, rank n < fuel2 →
      generate fuel2 m' n = Except.ok m' := by
  have hI0 := initModel_Inv specs rank hkeys hnd
  obtain ⟨hF, hI, hall⟩ := generateAll_sound hR fuel ns _ m' hI0 hgen
  intro n s hsn fuel2 hrank
  have hnin : n ∈ ns := by
    cases h0 : mget (initModel specs) n with
    | none => rw [hF.1 n h0] at hsn; simp at hsn
    | some s0 => exact hcov (n, s0) (alookup_mem h0)
  exact generate_idem hR fuel2 n m' hI (hall n hnin) hrank

/-- Witness for C2: re-generating `Company` in the generated §8 model
returns the model unchanged. -/
theorem C2_witness :
    generateAll 5 (initModel wSpecs) wNames = Except.ok wGenRes ∧
    generate 9 wGenRes "Company" = Except.ok wGenRes := by
  have h1 : generateAll 5 (initModel wSpecs) wNames = Except.ok wGenRes :=
    rfl
  have hs : mget wGenRes "Company" =
      some (((mget wGenRes "Company").getD (schemaInit "x" wEmptySpec))) := by
    decide
  exact ⟨h1, C2_generate_idempotent wSpecs wRank 5 wNames wGenRes
    (by decide) (by decide) wRkG h1 (by decide) "Company" _ hs 9 (by decide)⟩

/-- **C3 counterexample**: with two roots `R1`, `R2` both declaring a
property named `x` and `C` extending both, after generation `C.properties
["x"]` is `R1`'s property object, not `R2`'s — so for the pair `(R2, C)`
the name is present but does *not* reference the same underlying property,
refuting the claim as universally stated. -/
theorem C3_counterexample :
    generateAll 5 (initModel wSpecsC) wNamesC = Except.ok wGenResC ∧
    ∃ sc sp vR2,
      mget wGenResC "C" = some sc ∧ mget wGenResC "R2" = some sp ∧
      "R2" ∈ sc.extNames ∧
      alookup sp.properties "x" = some vR2 ∧
      alookup (propPhi wSpecsC "C") "x" = none ∧
      alookup sc.properties "x" ≠ some vR2 ∧
      alookup sc.properties "x" =
        some (propertyInit "R1" "x" wPSpec) := by
  refine ⟨rfl, ?_⟩
  refine ⟨((mget wGenResC "C").getD (schemaInit "x" wEmptySpec)),
          ((mget wGenResC "R2").getD (schemaInit "x" wEmptySpec)),
          propertyInit "R2" "x" wPSpec, ?_, ?_, ?_, ?_, ?_, ?_, ?_⟩ <;>
    decide

/-- **C3 amended**: after generation, every property name of a direct
parent is present in the child's merged map, and a property the child
declared locally (before the merge) keeps its original binding; the child's
binding references the same underlying property object as the parent's
provided the name is declared by exactly one schema of the child's ancestor
closure (with several declaring ancestors, the first-merged parent wins and
the other parents' objects are not referenced). -/
theorem C3_inheritance_visibility (specs : List (String × SchemaSpec))
    (rank : String → Nat) (fuel : Nat) (ns : List String) (m' : Model)
    (hkeys : (specs.map Prod.fst).Nodup)
    (hnd : ∀ e ∈ specs, ((e.2).properties.map Prod.fst).Nodup)
    (hR : RkG (extG specs) rank)
    (hgen : generateAll fuel (initModel specs) ns = .ok m')
    (hcov : ∀ e ∈ initModel specs, e.1 ∈ ns) :
    ∀ c p sc sp, mget m' c = some sc → mget m' p = some sp →
      p ∈ sc.extNames →
      ((∀ nm v, alookup sp.properties nm = some v →
          (alookup sc.properties nm).isSome = true) ∧
       (∀ nm v, alookup (propPhi specs c) nm = some v →
          alookup sc.properties nm = some v) ∧
       (∀ nm v, alookup sp.properties nm = some v →
          alookup (propPhi specs c) nm = none →
          (∀ a1 a2, a1 ∈ CLr (extG specs) rank c →
            (alookup (propPhi specs a1) nm).isSome = true →
            a2 ∈ CLr (extG specs) rank c →
            (alookup (propPhi specs a2) nm).isSome = true → a1 = a2) →
          alookup sc.properties nm = some v)) := by
  have hI0 := initModel_Inv specs rank hkeys hnd
  obtain ⟨hF, hI, hall⟩ := generateAll_sound hR fuel ns _ m' hI0 hgen
  intro c p sc sp hc hp hpext
  have hcin : c ∈ ns := by
    cases h0 : mget (initModel specs) c with
    | none => rw [hF.1 c h0] at hc; simp at hc
    | some s0 => exact hcov (c, s0) (alookup_mem h0)
  have hgc : sc.extNames = extG specs c := (hI.2 c sc hc).2.1
  have hpgc : p ∈ extG specs c := by rw [← hgc]; exact hpext
  have hconec := hall c hcin
  obtain ⟨sc2, hsc2, _, hgpc, _, _, _⟩ := hconec c (self_mem_CLr c)
  have hsceq : sc = sc2 := Option.some.inj (hc.symm.trans hsc2)
  subst hsceq
  refine ⟨?_, (hI.2 c sc hc).2.2.2.2.2.2.1, ?_⟩
  · intro nm v hv
    obtain ⟨a, ha, hbind⟩ :=
      (hI.2 p sp hp).2.2.2.2.2.2.2 (nm, v) (alookup_mem hv)
    exact hgpc a (CLr_parent_sub hR hpgc ha) nm v hbind
  · intro nm v hv _ huniq
    obtain ⟨a, ha, hbind⟩ :=
      (hI.2 p sp hp).2.2.2.2.2.2.2 (nm, v) (alookup_mem hv)
    have haC : a ∈ CLr (extG specs) rank c := CLr_parent_sub hR hpgc ha
    have hw : (alookup sc.properties nm).isSome = true :=
      hgpc a haC nm v hbind
    obtain ⟨w, hww⟩ := Option.isSome_iff_exists.mp hw
    obtain ⟨a2, ha2, hbind2⟩ :=
      (hI.2 c sc hc).2.2.2.2.2.2.2 (nm, w) (alookup_mem hww)
    have haa : a = a2 := huniq a a2 haC (by rw [hbind]; rfl) ha2
      (by rw [hbind2]; rfl)
    rw [← haa] at hbind2
    have hvw : v = w := Option.some.inj (hbind.symm.trans hbind2)
    rw [hww, ← hvw]

/-- Witness for C3's amended theorem: in the generated §8 model,
`LegalEntity`'s inherited `name` is `Thing`'s object, visible on `Company`
with the same reference (`name` has a unique declaring ancestor there). -/
theorem C3_witness :
    generateAll 5 (initModel wSpecs) wNames = Except.ok wGenRes ∧
    ∃ sc sp, mget wGenRes "Company" = some sc ∧
      mget wGenRes "LegalEntity" = some sp ∧
      alookup sc.properties "name" =
        some (propertyInit "Thing" "name" wPSpec) := by
  have h1 : generateAll 5 (initModel wSpecs) wNames = Except.ok wGenRes :=
    rfl
  refine ⟨h1, ((mget wGenRes "Company").getD (schemaInit "x" wEmptySpec)),
    ((mget wGenRes "LegalEntity").getD (schemaInit "x" wEmptySpec)),
    by decide, by decide, ?_⟩
  have hsc : mget wGenRes "Company" =
      some ((mget wGenRes "Company").getD (schemaInit "x" wEmptySpec)) := by
    decide
  have hsp : mget wGenRes "LegalEntity" =
      some ((mget wGenRes "LegalEntity").getD (schemaInit "x" wEmptySpec)) := by
    decide
  have hext : "LegalEntity" ∈
      ((mget wGenRes "Company").getD (schemaInit "x" wEmptySpec)).extNames := by
    decide
  have h3 := (C3_inheritance_visibility wSpecs wRank 5 wNames wGenRes
    (by decide) (by decide) wRkG h1 (by decide) "Company" "LegalEntity" _ _
    hsc hsp hext).2.2 "name" (propertyInit "Thing" "name" wPSpec)
    (by decide) (by decide) ?_
  · exact h3
  · intro a1 a2 ha1 hb1 ha2 hb2
    have hCL : CLr (extG wSpecs) wRank "Company" =
        {"Company", "LegalEntity", "Thing"} := by decide
    rw [hCL] at ha1 ha2
    simp at ha1 ha2
    rcases ha1 with h | h | h <;> rcases ha2 with h2 | h2 | h2 <;>
      subst h <;> subst h2 <;> first
        | rfl
        | (exfalso; revert hb1; decide)
        | (exfalso; revert hb2; decide)

/-- **C5**: with enough fuel, `generate()` succeeds iff for every schema of
the argument's ancestor cone all `extends` targets resolve and every
`featured`/`caption`/`required` name and (for edge schemas) both endpoint
names are declared somewhere in that schema's closure; a failing
`generate()` aborts the whole load (`generateAll` propagates the error
instead of skipping the entry); and `_add_reverse` fails exactly on a
reverse declaration without a name, succeeding on any named one. -/
theorem C5_configuration_errors (g : String → List String)
    (rank : String → Nat) (Phi : String → List (String × Property))
    (hR : RkG g rank) (fuel : Nat) (m : Model) (n : String)
    (hI : Inv g rank Phi m) (hrank : rank n < fuel) :
    ((∃ m', generate fuel m n = .ok m') ↔
      ∀ a ∈ CLr g rank n, condOK g rank Phi m a) ∧
    (∀ (m2 : Model) (n2 : String) (rest : List String) (e : Err),
      generate fuel m2 n2 = Except.error e →
      generateAll fuel m2 (n2 :: rest) = Except.error e) ∧
    (∀ (mm : Model) (sN : String) (d : ReverseSpec) (o : Property),
      (d.name = none →
        addReverse mm sN d o =
          .error (.invalidModel ("Unnamed reverse: " ++ o.name))) ∧
      (∀ nm2 t, d.name = some nm2 → mget mm sN = some t →
        ∃ res, addReverse mm sN d o = .ok res)) := by
  refine ⟨⟨?_, ?_⟩, ?_, ?_⟩
  · rintro ⟨m', hm'⟩
    exact generate_necessary hR hI hm'
  · intro hcond
    exact generate_complete hR fuel n m hI hcond hrank
  · intro m2 n2 rest e hge
    unfold generateAll
    simp [hge]
  · intro mm sN d o
    constructor
    · intro hd
      unfold addReverse
      rw [hd]
    · intro nm2 t hd hm
      unfold addReverse
      simp only [hd, hm]
      cases hg : t.get (some nm2) with
      | some prop => simp [hg]
      | none => simp [hg]

/-- Witness for C5 at the §8 scenario: generating `Company` on the freshly
constructed model succeeds (so the conditions hold), and `_add_reverse`
with an unnamed reverse declaration raises while a named one succeeds. -/
theorem C5_witness :
    (∀ a ∈ CLr (extG wSpecs) wRank "Company",
      condOK (extG wSpecs) wRank (propPhi wSpecs) (initModel wSpecs) a) ∧
    addReverse (initModel wSpecs) "Thing"
        { name := none, label := none, hidden := none }
        (propertyInit "Other" "y" wPSpec) =
      .error (.invalidModel ("Unnamed reverse: " ++ "y")) ∧
    (∃ res, addReverse (initModel wSpecs) "Thing"
        { name := some "rev", label := none, hidden := none }
        (propertyInit "Other" "y" wPSpec) = .ok res) := by
  have hI0 := initModel_Inv wSpecs wRank (by decide) (by decide)
  have h5 := C5_configuration_errors (extG wSpecs) wRank (propPhi wSpecs)
    wRkG 5 (initModel wSpecs) "Company" hI0 (by decide)
  refine ⟨?_, ?_, ?_⟩
  · apply h5.1.mp
    exact ⟨_, rfl⟩
  · exact (h5.2.2 (initModel wSpecs) "Thing"
      { name := none, label := none, hidden := none }
      (propertyInit "Other" "y" wPSpec)).1 rfl
  · exact (h5.2.2 (initModel wSpecs) "Thing"
      { name := some "rev", label := none, hidden := none }
      (propertyInit "Other" "y" wPSpec)).2 "rev"
      (schemaInit "Thing" wThingSpec) rfl (by decide)

end FTM
